import Mathlib

/-!
Verification of the `codex_subagent` registry (`src/codex_subagent/registry.py`
and `src/codex_subagent/paths.py`).

The registry stores JSON records ("threads") keyed by a string `thread_id`,
persisted as a single JSON document written atomically (temp file + fsync +
rename).  We shallowly embed:

* `JValue` — JSON-compatible Python values (ints only for numbers; floats are
  out of scope of the embedding).
* Python semantics helpers: truthiness (`pyTruthy`), `str()` coercion
  (`pyStr`), `str.strip()` (`pyStrip`).
* `dumpVal`/`dumpThreadsStr` — model of `json.dump(..., indent=2,
  sort_keys=True)` (with `ensure_ascii=True`, the stdlib default).
* `parseValue`/`jsonLoads` — model of `json.loads` restricted to integer
  numerals; object keys are collected the way Python's `dict` builds them
  (later duplicate keys overwrite earlier ones).
* A tiny filesystem model `FS` (path ↦ file contents) together with
  `persistRun`, the atomic-write protocol of `Registry._persist` with an
  injected failure point (`PStep`).
* The pure registry (`Registry`, `loadThreads`, `upsert`, `get`,
  `list_threads`) mirroring `registry.py` line by line.
* A heap model (`Cell`, `storeVal`, `readGo`) of Python's reference
  semantics, in which `copy.deepcopy` is `deepcopyH` (read a value graph,
  re-store it at fresh addresses); the heap registry `RegistryH` mirrors
  `Registry` at the reference level and is used for the isolation claims.
-/

namespace Subagent

/-- JSON-compatible Python value: `None`, `bool`, `int`, `str`, `list`,
`dict` (association list of string keys).  Python floats are not modelled. -/
inductive JValue where
  | null : JValue
  | jbool (b : Bool) : JValue
  | num (n : Int) : JValue
  | str (s : String) : JValue
  | arr (xs : List JValue) : JValue
  | obj (fields : List (String × JValue)) : JValue

/- Structural size; used as fuel bound for the parser and the heap reader. -/
mutual
def sizeJ : JValue → Nat
  | .null => 1
  | .jbool _ => 1
  | .num _ => 1
  | .str _ => 1
  | .arr xs => 1 + sizeItems xs
  | .obj fs => 1 + sizeFields fs
def sizeItems : List JValue → Nat
  | [] => 0
  | x :: xs => sizeJ x + 1 + sizeItems xs
def sizeFields : List (String × JValue) → Nat
  | [] => 0
  | f :: fs => sizeJ f.2 + 1 + sizeFields fs
end

/-- Association-list lookup with string keys (Python `dict.get`). -/
def alookup {β : Type} (k : String) : List (String × β) → Option β
  | [] => none
  | kv :: l => if kv.1 = k then some kv.2 else alookup k l

/-- Association-list insert-or-replace (Python `d[k] = v`): re-assigning an
existing key keeps its position, a new key is appended (insertion order). -/
def objInsert {β : Type} (l : List (String × β)) (k : String) (v : β) :
    List (String × β) :=
  match l with
  | [] => [(k, v)]
  | kv :: rest => if kv.1 = k then (k, v) :: rest else kv :: objInsert rest k v

/-- Rebuild an association list one insertion at a time, the way a Python
`dict` is built from a sequence of pairs (later duplicates overwrite). -/
def dedupFields {β : Type} (l : List (String × β)) : List (String × β) :=
  l.foldl (fun acc kv => objInsert acc kv.1 kv.2) []

/-- Code-point lexicographic order on strings (Python's `str` comparison),
as an executable Boolean predicate. -/
def charListLe : List Char → List Char → Bool
  | [], _ => true
  | _ :: _, [] => false
  | a :: as_, b :: bs =>
    if a.toNat < b.toNat then true
    else if a.toNat = b.toNat then charListLe as_ bs else false

def strLe (a b : String) : Bool := charListLe a.data b.data

/-- Insert into a key-sorted association list (helper of `sortFields`). -/
def ordInsert (x : String × JValue) :
    List (String × JValue) → List (String × JValue)
  | [] => [x]
  | y :: l => if strLe x.1 y.1 then x :: y :: l else y :: ordInsert x l

/-- Sort an association list by key (Python `sorted(d.items())`, keys are
pairwise distinct in a `dict` so only the key matters). -/
def sortFields : List (String × JValue) → List (String × JValue)
  | [] => []
  | x :: l => ordInsert x (sortFields l)

/- Normal form: every object's field list sorted by key.  `json.dump` with
`sort_keys=True` serializes exactly the normal form, and two well-formed
values are equal as Python values (`==`) iff their normal forms coincide. -/
mutual
def jnorm : JValue → JValue
  | .arr xs => .arr (jnormList xs)
  | .obj fs => .obj (sortFields (jnormFields fs))
  | v => v
def jnormList : List JValue → List JValue
  | [] => []
  | x :: xs => jnorm x :: jnormList xs
def jnormFields : List (String × JValue) → List (String × JValue)
  | [] => []
  | f :: fs => (f.1, jnorm f.2) :: jnormFields fs
end

/-- No duplicate keys in a string list (executable). -/
def strNodup : List String → Bool
  | [] => true
  | k :: ks => (!(ks.contains k)) && strNodup ks

/- Well-formed value: every object (at any depth) has pairwise distinct
keys — true of anything that was ever a Python `dict`. -/
mutual
def jwfB : JValue → Bool
  | .arr xs => jwfListB xs
  | .obj fs => strNodup (fs.map Prod.fst) && jwfFieldsB fs
  | _ => true
def jwfListB : List JValue → Bool
  | [] => true
  | x :: xs => jwfB x && jwfListB xs
def jwfFieldsB : List (String × JValue) → Bool
  | [] => true
  | f :: fs => jwfB f.2 && jwfFieldsB fs
end

/-- Python truthiness (`if not thread_id`): `None`, `False`, `0`, `""`,
`[]`, and `{}` are falsy, everything else truthy. -/
def pyTruthy : JValue → Bool
  | .null => false
  | .jbool b => b
  | .num n => !(n == 0)
  | .str s => !(s == "")
  | .arr xs => !xs.isEmpty
  | .obj fs => !fs.isEmpty

/-- Decimal digits of a natural number (fuel-structural so it evaluates in
the kernel; fuel `n+1` always suffices). -/
def natToCharsAux : Nat → Nat → List Char
  | 0, _ => []
  | fuel + 1, n =>
    if n < 10 then [Char.ofNat (48 + n)]
    else natToCharsAux fuel (n / 10) ++ [Char.ofNat (48 + n % 10)]

def natToChars (n : Nat) : List Char := natToCharsAux (n + 1) n

/-- Python's decimal rendering of an `int` (`str(i)` / `json` serialization
of an integer). -/
def intToChars (i : Int) : List Char :=
  if i < 0 then '-' :: natToChars i.natAbs else natToChars i.natAbs

/- Python `str()` / `repr()` of a JSON-compatible value.  `str` returns the
string itself; containers render via `repr`.  Simplification: `repr` of a
string is `'...'` without escaping of quotes/control characters (the claims
never depend on `repr`'s escaping rules, only on `pyStr` being a function). -/
mutual
def pyReprChars : JValue → List Char
  | .null => ['N','o','n','e']
  | .jbool true => ['T','r','u','e']
  | .jbool false => ['F','a','l','s','e']
  | .num i => intToChars i
  | .str s => '\'' :: s.data ++ ['\'']
  | .arr xs => '[' :: pyReprItems xs ++ [']']
  | .obj fs => '{' :: pyReprFields fs ++ ['}']
def pyReprItems : List JValue → List Char
  | [] => []
  | [x] => pyReprChars x
  | x :: y :: xs => pyReprChars x ++ ',' :: ' ' :: pyReprItems (y :: xs)
def pyReprFields : List (String × JValue) → List Char
  | [] => []
  | [f] => '\'' :: f.1.data ++ '\'' :: ':' :: ' ' :: pyReprChars f.2
  | f :: g :: fs =>
    '\'' :: f.1.data ++ '\'' :: ':' :: ' ' :: pyReprChars f.2
      ++ ',' :: ' ' :: pyReprFields (g :: fs)
end

/-- Python `str()` coercion (`str(thread_id)`). -/
def pyStr : JValue → String
  | .str s => s
  | v => String.mk (pyReprChars v)

/-! ### Serializer: `json.dump(threads, handle, indent=2, sort_keys=True)` -/

def spaces (n : Nat) : List Char := List.replicate n ' '

def toHex4 (n : Nat) : List Char :=
  [hexDigit (n / 4096 % 16), hexDigit (n / 256 % 16),
   hexDigit (n / 16 % 16), hexDigit (n % 16)]
where hexDigit (k : Nat) : Char :=
  if k < 10 then Char.ofNat (48 + k) else Char.ofNat (87 + k)

/-- `ensure_ascii=True` escaping of one character: the two-character
shortcuts, printable ASCII verbatim, everything else `\uXXXX` (a surrogate
pair for code points above `0xFFFF`). -/
def escapeChar (c : Char) : List Char :=
  if c = '"' then ['\\', '"']
  else if c = '\\' then ['\\', '\\']
  else if c = '\n' then ['\\', 'n']
  else if c = '\r' then ['\\', 'r']
  else if c = '\t' then ['\\', 't']
  else if c = Char.ofNat 8 then ['\\', 'b']
  else if c = Char.ofNat 12 then ['\\', 'f']
  else if 32 ≤ c.toNat ∧ c.toNat ≤ 126 then [c]
  else if c.toNat < 65536 then '\\' :: 'u' :: toHex4 c.toNat
  else
    '\\' :: 'u' :: (toHex4 (55296 + (c.toNat - 65536) / 1024)
      ++ '\\' :: 'u' :: toHex4 (56320 + (c.toNat - 65536) % 1024))

def escapeStr : List Char → List Char
  | [] => []
  | c :: cs => escapeChar c ++ escapeStr cs

def dumpStrChars (s : String) : List Char := '"' :: escapeStr s.data ++ ['"']

/- The serializer proper; `ind` is the current indentation.  It does not
sort — `dumpThreadsStr` feeds it the normal form, which is exactly what the
sorting encoder produces. -/
mutual
def dumpVal : Nat → JValue → List Char
  | _, .null => ['n','u','l','l']
  | _, .jbool true => ['t','r','u','e']
  | _, .jbool false => ['f','a','l','s','e']
  | _, .num i => intToChars i
  | _, .str s => dumpStrChars s
  | ind, .arr xs =>
    match xs with
    | [] => ['[', ']']
    | _ :: _ => '[' :: '\n' :: (dumpItems (ind + 2) xs ++ '\n' :: (spaces ind ++ [']']))
  | ind, .obj fs =>
    match fs with
    | [] => ['{', '}']
    | _ :: _ => '{' :: '\n' :: (dumpFields (ind + 2) fs ++ '\n' :: (spaces ind ++ ['}']))
def dumpItems : Nat → List JValue → List Char
  | _, [] => []
  | ind, [x] => spaces ind ++ dumpVal ind x
  | ind, x :: y :: xs =>
    spaces ind ++ dumpVal ind x ++ ',' :: '\n' :: dumpItems ind (y :: xs)
def dumpFields : Nat → List (String × JValue) → List Char
  | _, [] => []
  | ind, [f] => spaces ind ++ dumpStrChars f.1 ++ ':' :: ' ' :: dumpVal ind f.2
  | ind, f :: g :: fs =>
    spaces ind ++ dumpStrChars f.1 ++ ':' :: ' ' :: dumpVal ind f.2
      ++ ',' :: '\n' :: dumpFields ind (g :: fs)
end

/-- `json.dump(self._threads, handle, indent=2, sort_keys=True)` as a string:
serialize the normal form of the top-level mapping. -/
def dumpThreadsStr (ts : List (String × JValue)) : String :=
  String.mk (dumpVal 0 (jnorm (.obj ts)))

/-! ### Parser: `json.loads`, restricted to integer numerals -/

def jws (c : Char) : Bool := c = ' ' || c = '\t' || c = '\n' || c = '\r'

def skipWs (cs : List Char) : List Char := cs.dropWhile jws

/-- Consume an expected literal fragment. -/
def dropLit : List Char → List Char → Option (List Char)
  | [], rest => some rest
  | p :: ps, c :: rest => if c = p then dropLit ps rest else none
  | _ :: _, [] => none

def headIsB (cs : List Char) (c : Char) : Bool :=
  match cs with
  | x :: _ => x == c
  | [] => false

def parseHex4 : List Char → Except String (Nat × List Char)
  | a :: b :: c :: d :: rest =>
    match hexVal a, hexVal b, hexVal c, hexVal d with
    | some x, some y, some z, some w => .ok (4096 * x + 256 * y + 16 * z + w, rest)
    | _, _, _, _ => .error "Invalid \\uXXXX escape"
  | _ => .error "Invalid \\uXXXX escape"
where hexVal (c : Char) : Option Nat :=
  if 48 ≤ c.toNat ∧ c.toNat ≤ 57 then some (c.toNat - 48)
  else if 97 ≤ c.toNat ∧ c.toNat ≤ 102 then some (c.toNat - 87)
  else if 65 ≤ c.toNat ∧ c.toNat ≤ 70 then some (c.toNat - 55)
  else none

/-- JSON string body (after the opening quote).  Surrogate pairs are
combined; lone surrogates are rejected (Lean strings cannot hold them —
the only divergence from CPython, which tolerates them). -/
def parseStrBody : Nat → List Char → Except String (List Char × List Char)
  | 0, _ => .error "fuel exhausted"
  | f + 1, cs =>
    match cs with
    | [] => .error "Unterminated string"
    | c :: rest =>
      if c = '"' then .ok ([], rest)
      else if c = '\\' then
        match rest with
        | [] => .error "Unterminated string"
        | e :: rest2 =>
          if e = '"' then (parseStrBody f rest2).map (fun p => ('"' :: p.1, p.2))
          else if e = '\\' then (parseStrBody f rest2).map (fun p => ('\\' :: p.1, p.2))
          else if e = '/' then (parseStrBody f rest2).map (fun p => ('/' :: p.1, p.2))
          else if e = 'n' then (parseStrBody f rest2).map (fun p => ('\n' :: p.1, p.2))
          else if e = 'r' then (parseStrBody f rest2).map (fun p => ('\r' :: p.1, p.2))
          else if e = 't' then (parseStrBody f rest2).map (fun p => ('\t' :: p.1, p.2))
          else if e = 'b' then (parseStrBody f rest2).map (fun p => (Char.ofNat 8 :: p.1, p.2))
          else if e = 'f' then (parseStrBody f rest2).map (fun p => (Char.ofNat 12 :: p.1, p.2))
          else if e = 'u' then
            match parseHex4 rest2 with
            | .error er => .error er
            | .ok (n, r1) =>
              if 55296 ≤ n ∧ n < 56320 then
                match r1 with
                | b1 :: b2 :: r2 =>
                  if b1 = '\\' ∧ b2 = 'u' then
                    match parseHex4 r2 with
                    | .error er => .error er
                    | .ok (m, r3) =>
                      if 56320 ≤ m ∧ m < 57344 then
                        (parseStrBody f r3).map
                          (fun p =>
                            (Char.ofNat (65536 + (n - 55296) * 1024 + (m - 56320)) :: p.1, p.2))
                      else .error "Invalid low surrogate"
                  else .error "Unpaired surrogate"
                | _ => .error "Unpaired surrogate"
              else if 56320 ≤ n ∧ n < 57344 then .error "Unpaired surrogate"
              else (parseStrBody f r1).map (fun p => (Char.ofNat n :: p.1, p.2))
          else .error "Invalid escape"
      else if c.toNat < 32 then .error "Invalid control character"
      else (parseStrBody f rest).map (fun p => (c :: p.1, p.2))

def isDigitB (c : Char) : Bool := 48 ≤ c.toNat && c.toNat ≤ 57

def digitsToNat (ds : List Char) : Nat :=
  ds.foldl (fun acc c => 10 * acc + (c.toNat - 48)) 0

def parseNat (cs : List Char) : Except String (Nat × List Char) :=
  match cs.takeWhile isDigitB with
  | [] => .error "Expecting value"
  | ds => .ok (digitsToNat ds, cs.dropWhile isDigitB)

/- Recursive-descent JSON value parser (fuel-structural).  Objects are
materialized with `dedupFields`, matching Python `dict` construction. -/
mutual
def parseValue : Nat → List Char → Except String (JValue × List Char)
  | 0, _ => .error "fuel exhausted"
  | f + 1, cs =>
    match skipWs cs with
    | [] => .error "Expecting value"
    | c :: rest =>
      if c = 'n' then
        match dropLit ['u','l','l'] rest with
        | some r => .ok (.null, r)
        | none => .error "Expecting value"
      else if c = 't' then
        match dropLit ['r','u','e'] rest with
        | some r => .ok (.jbool true, r)
        | none => .error "Expecting value"
      else if c = 'f' then
        match dropLit ['a','l','s','e'] rest with
        | some r => .ok (.jbool false, r)
        | none => .error "Expecting value"
      else if c = '"' then
        (parseStrBody (rest.length + 1) rest).map
          (fun p => (.str (String.mk p.1), p.2))
      else if c = '[' then
        if headIsB (skipWs rest) ']' then .ok (.arr [], (skipWs rest).tail)
        else (parseItems f rest).map (fun p => (.arr p.1, p.2))
      else if c = '{' then
        if headIsB (skipWs rest) '}' then .ok (.obj [], (skipWs rest).tail)
        else (parseFields f rest).map (fun p => (.obj (dedupFields p.1), p.2))
      else if c = '-' then
        (parseNat rest).map (fun p => (.num (-(p.1 : Int)), p.2))
      else if isDigitB c then
        (parseNat (c :: rest)).map (fun p => (.num (p.1 : Int), p.2))
      else .error "Expecting value"
def parseItems : Nat → List Char → Except String (List JValue × List Char)
  | 0, _ => .error "fuel exhausted"
  | f + 1, cs =>
    match parseValue f cs with
    | .error e => .error e
    | .ok (v, r) =>
      match skipWs r with
      | [] => .error "Expecting comma"
      | d :: r2 =>
        if d = ',' then
          match parseItems f r2 with
          | .error e => .error e
          | .ok (vs, r3) => .ok (v :: vs, r3)
        else if d = ']' then .ok ([v], r2)
        else .error "Expecting comma"
def parseFields : Nat → List Char →
    Except String (List (String × JValue) × List Char)
  | 0, _ => .error "fuel exhausted"
  | f + 1, cs =>
    match skipWs cs with
    | [] => .error "Expecting property name"
    | c :: rest =>
      if c = '"' then
        match parseStrBody (rest.length + 1) rest with
        | .error e => .error e
        | .ok (k, r1) =>
          match skipWs r1 with
          | [] => .error "Expecting colon"
          | d :: r2 =>
            if d = ':' then
              match parseValue f r2 with
              | .error e => .error e
              | .ok (v, r3) =>
                match skipWs r3 with
                | [] => .error "Expecting comma"
                | d2 :: r4 =>
                  if d2 = ',' then
                    match parseFields f r4 with
                    | .error e => .error e
                    | .ok (ps, r5) => .ok ((String.mk k, v) :: ps, r5)
                  else if d2 = '}' then .ok ([(String.mk k, v)], r4)
                  else .error "Expecting comma"
            else .error "Expecting colon"
      else .error "Expecting property name"
end

/-- `json.loads`: parse a complete document, rejecting trailing garbage. -/
def jsonLoads (s : String) : Except String JValue :=
  match parseValue (s.data.length + 1) s.data with
  | .error e => .error e
  | .ok (v, rest) => if (skipWs rest).isEmpty then .ok v else .error "Extra data"

/-- Python `str.strip()` (ASCII whitespace; exotic Unicode spaces are not
modelled). -/
def pyWsChar (c : Char) : Bool :=
  c = ' ' || c = '\t' || c = '\n' || c = '\r' || c = Char.ofNat 11 || c = Char.ofNat 12

def pyStrip (s : String) : String :=
  String.mk (((s.data.dropWhile pyWsChar).reverse.dropWhile pyWsChar).reverse)

/-! ### Filesystem model and the atomic-write protocol (`Registry._persist`) -/

/-- A filesystem as an association list of path ↦ file contents. -/
abbrev FS : Type := List (String × String)

def fsRead (fs : FS) (p : String) : Option String := alookup p fs

def fsWrite (fs : FS) (p c : String) : FS := objInsert fs p c

def fsRemove : FS → String → FS
  | [], _ => []
  | kv :: l, p => if kv.1 = p then fsRemove l p else kv :: fsRemove l p

def fsExists (fs : FS) (p : String) : Bool := (fsRead fs p).isSome

/-- `os.replace(src, dst)`: atomic rename (no-op here if `src` is absent,
which the persist sequence never hits). -/
def fsRename (fs : FS) (src dst : String) : FS :=
  match fsRead fs src with
  | none => fs
  | some c => fsWrite (fsRemove fs src) dst c

/-- Injected failure point for the persist sequence: which step of
`Registry._persist` raises.  `dirFsyncFail` is the best-effort directory
fsync whose `OSError` the code swallows. -/
inductive PStep where
  | mkdirFail | mkstempFail | writeFail | fsyncFail | renameFail
  | dirFsyncFail | noFail
deriving DecidableEq

/-- `Registry._persist`, with `tmp` the fresh name `mkstemp` picks:
mkdir parent → mkstemp (creates the temp file) → write+flush+fsync →
`os.replace` → best-effort dir fsync; the `finally` block removes the temp
file if it still exists.  Returns the filesystem and whether the sequence
succeeded (an exception in Python). -/
def persistRun (fs : FS) (dest tmp content : String) (fail : PStep) : FS × Bool :=
  match fail with
  | .mkdirFail => (fs, false)
  | .mkstempFail => (fs, false)
  | _ =>
    let fs₁ := fsWrite fs tmp ""
    let step : FS × Bool :=
      match fail with
      | .writeFail => (fs₁, false)
      | .fsyncFail => (fsWrite fs₁ tmp content, false)
      | .renameFail => (fsWrite fs₁ tmp content, false)
      | _ => (fsRename (fsWrite fs₁ tmp content) tmp dest, true)
    let fs₃ := if fsExists step.1 tmp then fsRemove step.1 tmp else step.1
    (fs₃, step.2)

/-! ### The registry (pure-value level) -/

/-- Upsert error taxonomy: `validation` is the `ValueError` raised for a
missing/falsy `thread_id`; `persist` stands for any exception escaping the
atomic-write sequence. -/
inductive RegError where
  | validation (msg : String)
  | persist (msg : String)
deriving DecidableEq

structure Registry where
  state_file : String
  threads : List (String × JValue)

/-- `Registry._load`: absent file → empty; blank file → empty; JSON syntax
error → `RegistryLoadError` naming the path and cause; well-formed JSON that
is not an object → empty; otherwise the object's fields with keys coerced
(`{str(key): value}` — keys of a parsed JSON object are already strings). -/
def loadThreads (fs : FS) (path : String) : Except String (List (String × JValue)) :=
  match fsRead fs path with
  | none => .ok []
  | some raw =>
    if pyStrip raw = "" then .ok []
    else
      match jsonLoads (pyStrip raw) with
      | .error e => .error ("Failed to load registry from " ++ path ++ ": " ++ e)
      | .ok (.obj fields) => .ok (dedupFields fields)
      | .ok _ => .ok []

/-- `Registry.__init__`: construction triggers `_load`. -/
def constructRegistry (fs : FS) (path : String) : Except String Registry :=
  (loadThreads fs path).map (fun ts => ⟨path, ts⟩)

/-- `Registry.get`: `str` coercion of the argument is the identity on
strings; the `copy.deepcopy` on the way out is value-identity here (the
heap model below accounts for reference isolation). -/
def Registry.get (r : Registry) (thread_id : String) : Option JValue :=
  alookup thread_id r.threads

/-- `Registry.list_threads`: the values, in insertion order. -/
def Registry.list_threads (r : Registry) : List JValue :=
  r.threads.map Prod.snd

/-- `Registry.upsert`: validate truthiness of `thread.get("thread_id")`,
store a deep copy under `str(thread_id)`, then `_persist` with failure
point `fail` and temp-file name `tmp`.  Returns the filesystem, the
registry, and the outcome. -/
def upsert (fs : FS) (r : Registry) (thread : List (String × JValue))
    (tmp : String) (fail : PStep) : FS × Registry × Except RegError Unit :=
  let tid := (alookup "thread_id" thread).getD .null
  if pyTruthy tid then
    let newThreads := objInsert r.threads (pyStr tid) (.obj thread)
    let r' : Registry := ⟨r.state_file, newThreads⟩
    let run := persistRun fs r.state_file tmp (dumpThreadsStr newThreads) fail
    (run.1, r', if run.2 then .ok () else .error (.persist "persist failed"))
  else
    (fs, r, .error (.validation "Thread must include a thread_id"))

/-! ### Heap model of Python reference semantics (for the isolation claims)

A heap is a list of cells; an address is an index.  Container cells hold
addresses of their children.  `storeVal` materializes a pure value as a
fresh value graph (children first, so a stored graph's edges always point
to lower, earlier-allocated addresses).  `readGo` reads a value graph back
into a pure value, with fuel.  `copy.deepcopy` is read-then-store. -/

inductive Cell where
  | cnull : Cell
  | cbool (b : Bool) : Cell
  | cnum (n : Int) : Cell
  | cstr (s : String) : Cell
  | carr (children : List Nat) : Cell
  | cobj (fields : List (String × Nat)) : Cell

abbrev Heap : Type := List Cell

/-- Mutating a heap cell in place (`obj[i] = ...`, `d[k] = ...`,
`lst.append` on the cell's own payload, etc.). -/
def setCell (h : Heap) (a : Nat) (c : Cell) : Heap := h.set a c

mutual
def storeVal (h : Heap) : JValue → Heap × Nat
  | .null => (h ++ [.cnull], h.length)
  | .jbool b => (h ++ [.cbool b], h.length)
  | .num n => (h ++ [.cnum n], h.length)
  | .str s => (h ++ [.cstr s], h.length)
  | .arr xs =>
    let p := storeList h xs
    (p.1 ++ [.carr p.2], p.1.length)
  | .obj fs =>
    let p := storeFields h fs
    (p.1 ++ [.cobj p.2], p.1.length)
def storeList (h : Heap) : List JValue → Heap × List Nat
  | [] => (h, [])
  | x :: xs =>
    let p := storeVal h x
    let q := storeList p.1 xs
    (q.1, p.2 :: q.2)
def storeFields (h : Heap) : List (String × JValue) → Heap × List (String × Nat)
  | [] => (h, [])
  | f :: fs =>
    let p := storeVal h f.2
    let q := storeFields p.1 fs
    (q.1, (f.1, p.2) :: q.2)
end

mutual
def readGo (h : Heap) : Nat → Nat → Option JValue
  | 0, _ => none
  | f + 1, a =>
    match h[a]? with
    | none => none
    | some .cnull => some .null
    | some (.cbool b) => some (.jbool b)
    | some (.cnum n) => some (.num n)
    | some (.cstr s) => some (.str s)
    | some (.carr cs) => (readGoList h f cs).map JValue.arr
    | some (.cobj fs) => (readGoFields h f fs).map JValue.obj
def readGoList (h : Heap) : Nat → List Nat → Option (List JValue)
  | _, [] => some []
  | 0, _ :: _ => none
  | f + 1, c :: cs =>
    match readGo h f c, readGoList h f cs with
    | some v, some vs => some (v :: vs)
    | _, _ => none
def readGoFields (h : Heap) : Nat → List (String × Nat) → Option (List (String × JValue))
  | _, [] => some []
  | 0, _ :: _ => none
  | f + 1, f0 :: fs =>
    match readGo h f f0.2, readGoFields h f fs with
    | some v, some vs => some ((f0.1, v) :: vs)
    | _, _ => none
end

/-- Read the value graph rooted at `a`.  The canonical fuel `2·|h| + 2`
suffices for every graph built by `storeVal` (reading consumes at most
`sizeJ` fuel and `sizeJ v ≤ 2 · cells(v)`). -/
def readAt (h : Heap) (a : Nat) : Option JValue :=
  readGo h (2 * h.length + 2) a

/-- `copy.deepcopy`: read the graph, re-store it entirely at fresh
addresses. -/
def deepcopyH (h : Heap) (a : Nat) : Heap × Option Nat :=
  match readAt h a with
  | none => (h, none)
  | some v =>
    let p := storeVal h v
    (p.1, some p.2)

/-- The registry at the reference level: the internal dict maps each key to
the address of the internally retained deep copy. -/
structure RegistryH where
  threads : List (String × Nat)

/-- `Registry.get` in the heap model: look up, deep-copy outward. -/
def getH (h : Heap) (st : RegistryH) (tid : String) : Heap × Option Nat :=
  match alookup tid st.threads with
  | none => (h, none)
  | some addr => deepcopyH h addr

/-- `Registry.list_threads` in the heap model: deep-copy each stored record
outward, in order. -/
def listH (h : Heap) : List (String × Nat) → Heap × List (Option Nat)
  | [] => (h, [])
  | kv :: rest =>
    let p := deepcopyH h kv.2
    let q := listH p.1 rest
    (q.1, p.2 :: q.2)

/-- `Registry.upsert` in the heap model (persistence does not touch the
heap): validate the live argument, deep-copy it inward, store the copy's
address under `str(thread_id)`. -/
def upsertH (h : Heap) (st : RegistryH) (arg : Nat) :
    Except RegError (Heap × RegistryH) :=
  match readAt h arg with
  | some (.obj fields) =>
    let tid := (alookup "thread_id" fields).getD .null
    if pyTruthy tid then
      let p := storeVal h (.obj fields)
      .ok (p.1, ⟨objInsert st.threads (pyStr tid) p.2⟩)
    else .error (.validation "Thread must include a thread_id")
  | _ => .error (.validation "not a mapping")

/-- The value the registry would hand out for `tid` (what `get` returns,
read back as a pure value). -/
def getPure (h : Heap) (st : RegistryH) (tid : String) : Option JValue :=
  (alookup tid st.threads).bind (readAt h)

/-- The values `list_threads` would hand out, read back as pure values. -/
def listPure (h : Heap) (st : RegistryH) : List (Option JValue) :=
  st.threads.map (fun kv => readAt h kv.2)

/-- The documented registry invariant: every stored record is a mapping
whose `thread_id` field coerces (via `str`) to its key. -/
def invThreads (ts : List (String × JValue)) : Prop :=
  ∀ kv ∈ ts, ∃ fields tid, kv.2 = JValue.obj fields ∧
    alookup "thread_id" fields = some tid ∧ pyStr tid = kv.1

/-- A registry state that could have arisen from Python dicts: pairwise
distinct keys, and each stored record well-formed. -/
def registryWF (r : Registry) : Prop :=
  (r.threads.map Prod.fst).Nodup ∧ ∀ kv ∈ r.threads, jwfB kv.2 = true

/-! ## Helper lemmas: association lists -/

theorem alookup_objInsert_self {β : Type} (l : List (String × β)) (k : String) (v : β) :
    alookup k (objInsert l k v) = some v := by
  induction l with
  | nil => simp [objInsert, alookup]
  | cons kv rest ih =>
    by_cases h : kv.1 = k
    · simp [objInsert, h, alookup]
    · simp [objInsert, h, alookup, ih]

theorem alookup_objInsert_ne {β : Type} (l : List (String × β)) (k k' : String) (v : β)
    (h : k' ≠ k) : alookup k' (objInsert l k v) = alookup k' l := by
  have hkk : k ≠ k' := Ne.symm h
  induction l with
  | nil => simp [objInsert, alookup, hkk]
  | cons kv rest ih =>
    by_cases hk : kv.1 = k
    · subst hk
      simp [objInsert, alookup, hkk]
    · simp [objInsert, hk, alookup, ih]

theorem objInsert_keys_of_mem {β : Type} (l : List (String × β)) (k : String) (v : β)
    (h : k ∈ l.map Prod.fst) :
    (objInsert l k v).map Prod.fst = l.map Prod.fst := by
  induction l with
  | nil => simp at h
  | cons kv rest ih =>
    by_cases hk : kv.1 = k
    · simp [objInsert, hk]
    · rw [List.map_cons] at h
      rcases List.mem_cons.mp h with h1 | h1
      · exact absurd h1.symm hk
      · simp [objInsert, hk, ih h1]

theorem objInsert_append {β : Type} (l : List (String × β)) (k : String) (v : β)
    (h : k ∉ l.map Prod.fst) : objInsert l k v = l ++ [(k, v)] := by
  induction l with
  | nil => simp [objInsert]
  | cons kv rest ih =>
    have h1 : kv.1 ≠ k := fun hh => h (by rw [← hh]; simp)
    have h2 : k ∉ rest.map Prod.fst := fun hh => h (by simp [hh])
    simp [objInsert, h1, ih h2]

theorem objInsert_keys_of_not_mem {β : Type} (l : List (String × β)) (k : String) (v : β)
    (h : k ∉ l.map Prod.fst) :
    (objInsert l k v).map Prod.fst = l.map Prod.fst ++ [k] := by
  rw [objInsert_append l k v h]
  simp

theorem objInsert_nodup_keys {β : Type} (l : List (String × β)) (k : String) (v : β)
    (h : (l.map Prod.fst).Nodup) : ((objInsert l k v).map Prod.fst).Nodup := by
  by_cases hm : k ∈ l.map Prod.fst
  · rw [objInsert_keys_of_mem l k v hm]; exact h
  · rw [objInsert_keys_of_not_mem l k v hm]
    simp [List.nodup_append, h, hm]

theorem mem_objInsert {β : Type} (l : List (String × β)) (k : String) (v : β)
    (kv : String × β) (h : kv ∈ objInsert l k v) : kv = (k, v) ∨ kv ∈ l := by
  induction l with
  | nil => simp [objInsert] at h; exact Or.inl h
  | cons kv0 rest ih =>
    by_cases hk : kv0.1 = k
    · simp [objInsert, hk] at h
      rcases h with h | h
      · exact Or.inl h
      · exact Or.inr (List.mem_cons_of_mem _ h)
    · simp only [objInsert, hk, if_false, List.mem_cons] at h
      rcases h with h | h
      · exact Or.inr (by simp [h])
      · rcases ih h with h | h
        · exact Or.inl h
        · exact Or.inr (List.mem_cons_of_mem _ h)

theorem alookup_eq_none_iff {β : Type} (l : List (String × β)) (k : String) :
    alookup k l = none ↔ k ∉ l.map Prod.fst := by
  induction l with
  | nil => simp [alookup]
  | cons kv rest ih =>
    by_cases h : kv.1 = k
    · simp [alookup, h]
    · have h' : ¬(k = kv.1) := fun hh => h hh.symm
      simp [alookup, h, ih, h']

theorem alookup_mem {β : Type} (l : List (String × β)) (k : String) (v : β)
    (h : alookup k l = some v) : (k, v) ∈ l := by
  induction l with
  | nil => simp [alookup] at h
  | cons kv rest ih =>
    by_cases hk : kv.1 = k
    · simp [alookup, hk] at h
      have heq : kv = (k, v) := by cases kv; simp_all
      exact List.mem_cons.mpr (Or.inl heq.symm)
    · simp [alookup, hk] at h
      exact List.mem_cons_of_mem _ (ih h)

theorem mem_alookup_of_nodup {β : Type} (l : List (String × β)) (k : String) (v : β)
    (hn : (l.map Prod.fst).Nodup) (h : (k, v) ∈ l) : alookup k l = some v := by
  induction l with
  | nil => simp at h
  | cons kv rest ih =>
    simp only [List.map_cons, List.nodup_cons] at hn
    rcases List.mem_cons.mp h with h | h
    · simp [alookup, ← h]
    · have hk : kv.1 ≠ k := by
        intro hh
        apply hn.1
        have : (k, v).1 ∈ rest.map Prod.fst := List.mem_map_of_mem Prod.fst h
        simpa [hh] using this
      simp [alookup, hk, ih hn.2 h]

theorem alookup_perm {β : Type} (l l' : List (String × β)) (k : String)
    (hp : l.Perm l') (hn : (l.map Prod.fst).Nodup) :
    alookup k l = alookup k l' := by
  cases hv : alookup k l with
  | none =>
    rw [alookup_eq_none_iff] at hv
    have hv' : k ∉ l'.map Prod.fst := by
      intro hm
      exact hv ((hp.map Prod.fst).mem_iff.mpr hm)
    exact ((alookup_eq_none_iff l' k).mpr hv').symm
  | some v =>
    have hm : (k, v) ∈ l' := hp.mem_iff.mp (alookup_mem l k v hv)
    have hn' : (l'.map Prod.fst).Nodup := (hp.map Prod.fst).nodup_iff.mp hn
    exact (mem_alookup_of_nodup l' k v hn' hm).symm

theorem dedupFields_aux {β : Type} (l acc : List (String × β))
    (hn : (acc.map Prod.fst ++ l.map Prod.fst).Nodup) :
    l.foldl (fun acc kv => objInsert acc kv.1 kv.2) acc = acc ++ l := by
  induction l generalizing acc with
  | nil => simp
  | cons kv rest ih =>
    have hkey : kv.1 ∉ acc.map Prod.fst := by
      intro hm
      exact (List.nodup_append.mp hn).2.2 hm (by simp)
    rw [List.foldl_cons, objInsert_append acc kv.1 kv.2 hkey]
    have hn2 : ((acc ++ [kv]).map Prod.fst ++ rest.map Prod.fst).Nodup := by
      simp only [List.map_cons] at hn
      rw [List.append_cons] at hn
      simpa using hn
    rw [ih (acc ++ [kv]) hn2]
    simp

theorem dedupFields_eq_self {β : Type} (l : List (String × β))
    (hn : (l.map Prod.fst).Nodup) : dedupFields l = l := by
  have := dedupFields_aux l [] (by simpa using hn)
  simpa [dedupFields] using this

/-! ## Helper lemmas: the key order and `sortFields` -/

theorem char_eq_of_toNat_eq {a b : Char} (h : a.toNat = b.toNat) : a = b :=
  Char.ext (UInt32.ext h)

theorem charListLe_total (a : List Char) : ∀ b, charListLe a b = true ∨ charListLe b a = true := by
  induction a with
  | nil => intro b; left; simp [charListLe]
  | cons x xs ih =>
    intro b
    cases b with
    | nil => right; simp [charListLe]
    | cons y ys =>
      by_cases h1 : x.toNat < y.toNat
      · left; simp [charListLe, h1]
      · by_cases h2 : x.toNat = y.toNat
        · rcases ih ys with h | h
          · left; simp [charListLe, h1, h2, h]
          · right; simp [charListLe, h2.symm, (by omega : ¬ y.toNat < x.toNat), h]
        · right
          simp [charListLe, (by omega : y.toNat < x.toNat)]

theorem charListLe_trans : ∀ a b c : List Char, charListLe a b = true →
    charListLe b c = true → charListLe a c = true := by
  intro a
  induction a with
  | nil => intro b c _ _; simp [charListLe]
  | cons x xs ih =>
    intro b c hab hbc
    cases b with
    | nil => simp [charListLe] at hab
    | cons y ys =>
      cases c with
      | nil => simp [charListLe] at hbc
      | cons z zs =>
        by_cases h1 : x.toNat < y.toNat
        · by_cases h2 : y.toNat < z.toNat
          · simp [charListLe, (by omega : x.toNat < z.toNat)]
          · by_cases h3 : y.toNat = z.toNat
            · simp [charListLe, (by omega : x.toNat < z.toNat)]
            · simp [charListLe, h2, h3] at hbc
        · by_cases h2 : x.toNat = y.toNat
          · by_cases h3 : y.toNat < z.toNat
            · simp [charListLe, (by omega : x.toNat < z.toNat)]
            · by_cases h4 : y.toNat = z.toNat
              · simp [charListLe, h1, h2] at hab
                simp [charListLe, h3, h4] at hbc
                simp [charListLe, (by omega : ¬ x.toNat < z.toNat),
                  (by omega : x.toNat = z.toNat), ih ys zs hab hbc]
              · simp [charListLe, h3, h4] at hbc
          · simp [charListLe, h1, h2] at hab

theorem charListLe_antisymm : ∀ a b : List Char, charListLe a b = true →
    charListLe b a = true → a = b := by
  intro a
  induction a with
  | nil =>
    intro b _ hba
    cases b with
    | nil => rfl
    | cons y ys => simp [charListLe] at hba
  | cons x xs ih =>
    intro b hab hba
    cases b with
    | nil => simp [charListLe] at hab
    | cons y ys =>
      by_cases h1 : x.toNat < y.toNat
      · simp [charListLe] at hba
        exfalso
        rcases hba with h | ⟨h, _⟩ <;> omega
      · by_cases h2 : x.toNat = y.toNat
        · simp [charListLe, h1, h2] at hab
          simp [charListLe, (by omega : ¬ y.toNat < x.toNat), h2.symm] at hba
          rw [char_eq_of_toNat_eq h2, ih ys hab hba]
        · simp [charListLe, h1, h2] at hab

theorem strLe_total (a b : String) : strLe a b = true ∨ strLe b a = true :=
  charListLe_total a.data b.data

theorem strLe_trans {a b c : String} (h1 : strLe a b = true) (h2 : strLe b c = true) :
    strLe a c = true :=
  charListLe_trans a.data b.data c.data h1 h2

theorem strLe_antisymm {a b : String} (h1 : strLe a b = true) (h2 : strLe b a = true) :
    a = b := by
  cases a; cases b
  exact congrArg String.mk (charListLe_antisymm _ _ h1 h2)

theorem ordInsert_perm (x : String × JValue) (l : List (String × JValue)) :
    (ordInsert x l).Perm (x :: l) := by
  induction l with
  | nil => simp [ordInsert]
  | cons y ys ih =>
    by_cases h : strLe x.1 y.1
    · simp [ordInsert, h]
    · simp only [ordInsert, h, if_false]
      exact ((ih.cons y).trans (List.Perm.swap x y ys))

theorem sortFields_perm (l : List (String × JValue)) : (sortFields l).Perm l := by
  induction l with
  | nil => simp [sortFields]
  | cons x xs ih => exact (ordInsert_perm x (sortFields xs)).trans (ih.cons x)

theorem mem_ordInsert (z x : String × JValue) (l : List (String × JValue)) :
    z ∈ ordInsert x l ↔ z = x ∨ z ∈ l := by
  rw [(ordInsert_perm x l).mem_iff, List.mem_cons]

theorem ordInsert_sorted (x : String × JValue) (l : List (String × JValue))
    (hs : l.Pairwise (fun a b => strLe a.1 b.1 = true)) :
    (ordInsert x l).Pairwise (fun a b => strLe a.1 b.1 = true) := by
  induction l with
  | nil => simp [ordInsert]
  | cons y ys ih =>
    rcases List.pairwise_cons.mp hs with ⟨hy, hys⟩
    by_cases h : strLe x.1 y.1
    · simp only [ordInsert, h, if_true]
      refine List.pairwise_cons.mpr ⟨?_, hs⟩
      intro z hz
      rcases List.mem_cons.mp hz with rfl | hz
      · exact h
      · exact strLe_trans h (hy z hz)
    · have hyx : strLe y.1 x.1 = true := by
        rcases strLe_total x.1 y.1 with ht | ht
        · exact absurd ht h
        · exact ht
      simp only [ordInsert, h, if_false]
      refine List.pairwise_cons.mpr ⟨?_, ih hys⟩
      intro z hz
      rcases (mem_ordInsert z x ys).mp hz with rfl | hz
      · exact hyx
      · exact hy z hz

theorem sortFields_sorted (l : List (String × JValue)) :
    (sortFields l).Pairwise (fun a b => strLe a.1 b.1 = true) := by
  induction l with
  | nil => simp [sortFields]
  | cons x xs ih => exact ordInsert_sorted x (sortFields xs) ih

theorem sortFields_eq_of_sorted (l : List (String × JValue))
    (hs : l.Pairwise (fun a b => strLe a.1 b.1 = true)) : sortFields l = l := by
  induction l with
  | nil => rfl
  | cons x xs ih =>
    rcases List.pairwise_cons.mp hs with ⟨hx, hxs⟩
    rw [sortFields, ih hxs]
    cases xs with
    | nil => rfl
    | cons y ys => simp [ordInsert, hx y (List.mem_cons_self y ys)]

theorem sorted_nodup_perm_eq : ∀ l₁ l₂ : List (String × JValue),
    l₁.Perm l₂ → l₁.Pairwise (fun a b => strLe a.1 b.1 = true) →
    l₂.Pairwise (fun a b => strLe a.1 b.1 = true) →
    (l₁.map Prod.fst).Nodup → l₁ = l₂ := by
  intro l₁
  induction l₁ with
  | nil => intro l₂ hp _ _ _; exact (hp.nil_eq).symm ▸ rfl
  | cons a t₁ ih =>
    intro l₂ hp hs₁ hs₂ hn₁
    cases l₂ with
    | nil => exact absurd hp.symm (by simp [List.Perm.nil_eq, List.cons_ne_nil])
    | cons b t₂ =>
      have hab : a = b := by
        by_contra hne
        have ha2 : a ∈ b :: t₂ := hp.mem_iff.mp (List.mem_cons_self a t₁)
        have hb1 : b ∈ a :: t₁ := hp.symm.mem_iff.mp (List.mem_cons_self b t₂)
        have hat2 : a ∈ t₂ := by
          rcases List.mem_cons.mp ha2 with h | h
          · exact absurd h hne
          · exact h
        have hbt1 : b ∈ t₁ := by
          rcases List.mem_cons.mp hb1 with h | h
          · exact absurd h.symm hne
          · exact h
        have h1 : strLe a.1 b.1 = true :=
          (List.pairwise_cons.mp hs₁).1 b hbt1
        have h2 : strLe b.1 a.1 = true :=
          (List.pairwise_cons.mp hs₂).1 a hat2
        have hkey : a.1 = b.1 := strLe_antisymm h1 h2
        have : a.1 ∉ t₁.map Prod.fst := (List.nodup_cons.mp (by simpa using hn₁)).1
        exact this (hkey ▸ List.mem_map_of_mem Prod.fst hbt1)
      subst hab
      have hp' : t₁.Perm t₂ := hp.cons_inv
      rw [ih t₂ hp' (List.pairwise_cons.mp hs₁).2 (List.pairwise_cons.mp hs₂).2
        (List.nodup_cons.mp (by simpa using hn₁)).2]

theorem sortFields_eq_of_perm (l₁ l₂ : List (String × JValue))
    (hp : l₁.Perm l₂) (hn : (l₁.map Prod.fst).Nodup) :
    sortFields l₁ = sortFields l₂ := by
  apply sorted_nodup_perm_eq
  · exact (sortFields_perm l₁).trans (hp.trans (sortFields_perm l₂).symm)
  · exact sortFields_sorted l₁
  · exact sortFields_sorted l₂
  · exact ((sortFields_perm l₁).map Prod.fst).nodup_iff.mpr hn

/-! ## Helper lemmas: the normal form `jnorm` -/

theorem jnormFields_map_fst (l : List (String × JValue)) :
    (jnormFields l).map Prod.fst = l.map Prod.fst := by
  induction l with
  | nil => rfl
  | cons f fs ih => simp [jnormFields, ih]

theorem alookup_jnormFields (l : List (String × JValue)) (k : String) :
    alookup k (jnormFields l) = (alookup k l).map jnorm := by
  induction l with
  | nil => simp [jnormFields, alookup]
  | cons f fs ih =>
    by_cases h : f.1 = k
    · simp [jnormFields, alookup, h]
    · simp [jnormFields, alookup, h, ih]

theorem jnormFields_ordInsert (x : String × JValue) (l : List (String × JValue)) :
    jnormFields (ordInsert x l) = ordInsert (x.1, jnorm x.2) (jnormFields l) := by
  induction l with
  | nil => simp [ordInsert, jnormFields]
  | cons y ys ih =>
    by_cases h : strLe x.1 y.1
    · simp [ordInsert, h, jnormFields]
    · simp [ordInsert, h, jnormFields, ih]

theorem jnormFields_sortFields (l : List (String × JValue)) :
    jnormFields (sortFields l) = sortFields (jnormFields l) := by
  induction l with
  | nil => rfl
  | cons x xs ih => simp [sortFields, jnormFields, jnormFields_ordInsert, ih]

theorem sortFields_idem (l : List (String × JValue)) :
    sortFields (sortFields l) = sortFields l :=
  sortFields_eq_of_sorted _ (sortFields_sorted l)

mutual
theorem jnorm_idem : ∀ v : JValue, jnorm (jnorm v) = jnorm v
  | .null => rfl
  | .jbool _ => rfl
  | .num _ => rfl
  | .str _ => rfl
  | .arr xs => by rw [jnorm, jnorm, jnormList_idem xs]
  | .obj fs => by
    rw [jnorm, jnorm, jnormFields_sortFields, sortFields_idem, jnormFields_idem fs]
theorem jnormList_idem : ∀ xs : List JValue, jnormList (jnormList xs) = jnormList xs
  | [] => rfl
  | x :: xs => by rw [jnormList, jnormList, jnorm_idem x, jnormList_idem xs]
theorem jnormFields_idem : ∀ fs : List (String × JValue),
    jnormFields (jnormFields fs) = jnormFields fs
  | [] => rfl
  | f :: fs => by rw [jnormFields, jnormFields, jnorm_idem f.2, jnormFields_idem fs]
end

/-! ## Helper lemmas: well-formedness -/

theorem strNodup_iff (ks : List String) : strNodup ks = true ↔ ks.Nodup := by
  induction ks with
  | nil => simp [strNodup]
  | cons k rest ih =>
    simp [strNodup, List.nodup_cons, ih, List.contains_eq_any_beq, List.elem_iff]

theorem jwfListB_iff (xs : List JValue) :
    jwfListB xs = true ↔ ∀ x ∈ xs, jwfB x = true := by
  induction xs with
  | nil => simp [jwfListB]
  | cons x rest ih => simp [jwfListB, ih]

theorem jwfFieldsB_iff (fs : List (String × JValue)) :
    jwfFieldsB fs = true ↔ ∀ f ∈ fs, jwfB f.2 = true := by
  induction fs with
  | nil => simp [jwfFieldsB]
  | cons f rest ih => simp [jwfFieldsB, ih]

theorem jwfB_obj_nodup {fs : List (String × JValue)} (h : jwfB (.obj fs) = true) :
    (fs.map Prod.fst).Nodup := by
  rw [jwfB, Bool.and_eq_true] at h
  exact (strNodup_iff _).mp h.1

mutual
theorem jwfB_jnorm : ∀ v : JValue, jwfB v = true → jwfB (jnorm v) = true
  | .null, _ => rfl
  | .jbool _, _ => rfl
  | .num _, _ => rfl
  | .str _, _ => rfl
  | .arr xs, h => by
    rw [jnorm, jwfB]
    exact jwfListB_jnorm xs (by rwa [jwfB] at h)
  | .obj fs, h => by
    rw [jwfB, Bool.and_eq_true, strNodup_iff] at h
    rw [jnorm, jwfB, Bool.and_eq_true, strNodup_iff]
    constructor
    · have hperm := (sortFields_perm (jnormFields fs)).map Prod.fst
      rw [hperm.nodup_iff, jnormFields_map_fst]
      exact h.1
    · rw [jwfFieldsB_iff]
      intro f hf
      have hf' : f ∈ jnormFields fs := (sortFields_perm _).mem_iff.mp hf
      exact (jwfFieldsB_iff _).mp (jwfFieldsB_jnorm fs h.2) f hf'
theorem jwfListB_jnorm : ∀ xs : List JValue, jwfListB xs = true →
    jwfListB (jnormList xs) = true
  | [], _ => rfl
  | x :: xs, h => by
    rw [jwfListB, Bool.and_eq_true] at h
    rw [jnormList, jwfListB, Bool.and_eq_true]
    exact ⟨jwfB_jnorm x h.1, jwfListB_jnorm xs h.2⟩
theorem jwfFieldsB_jnorm : ∀ fs : List (String × JValue), jwfFieldsB fs = true →
    jwfFieldsB (jnormFields fs) = true
  | [], _ => rfl
  | f :: fs, h => by
    rw [jwfFieldsB, Bool.and_eq_true] at h
    rw [jnormFields, jwfFieldsB, Bool.and_eq_true]
    exact ⟨jwfB_jnorm f.2 h.1, jwfFieldsB_jnorm fs h.2⟩
end

/-! ## Helper lemmas: filesystem model -/

theorem fsRead_fsWrite_self (fs : FS) (p c : String) :
    fsRead (fsWrite fs p c) p = some c :=
  alookup_objInsert_self fs p c

theorem fsRead_fsWrite_ne (fs : FS) (p q c : String) (h : q ≠ p) :
    fsRead (fsWrite fs p c) q = fsRead fs q :=
  alookup_objInsert_ne fs p q c h

theorem fsRead_fsRemove_self (fs : FS) (p : String) :
    fsRead (fsRemove fs p) p = none := by
  induction fs with
  | nil => rfl
  | cons kv l ih =>
    by_cases h : kv.1 = p
    · simpa [fsRemove, h] using ih
    · simpa [fsRemove, h, fsRead, alookup, h] using ih

theorem fsRead_fsRemove_ne (fs : FS) (p q : String) (h : q ≠ p) :
    fsRead (fsRemove fs p) q = fsRead fs q := by
  induction fs with
  | nil => rfl
  | cons kv l ih =>
    by_cases hk : kv.1 = p
    · have hq : ¬ kv.1 = q := by rw [hk]; exact fun hh => h hh.symm
      simp only [fsRemove, hk, if_true]
      rw [ih]
      simp only [fsRead, alookup, hq, if_false]
    · simp only [fsRemove, hk, if_false]
      show alookup q (kv :: fsRemove l p) = alookup q (kv :: l)
      by_cases hq : kv.1 = q
      · simp [alookup, hq]
      · simp only [alookup, hq, if_false]
        exact ih

/-! ## Helper lemmas: the persist sequence -/

theorem persistRun_dest_unchanged (fs : FS) (dest tmp content : String) (fail : PStep)
    (hne : tmp ≠ dest)
    (hfail : (persistRun fs dest tmp content fail).2 = false) :
    fsRead (persistRun fs dest tmp content fail).1 dest = fsRead fs dest := by
  have hdt : dest ≠ tmp := Ne.symm hne
  cases fail with
  | mkdirFail => rfl
  | mkstempFail => rfl
  | writeFail =>
    simp only [persistRun]
    rw [show fsExists (fsWrite fs tmp "") tmp = true by
      simp [fsExists, fsRead_fsWrite_self]]
    simp only [if_true]
    rw [fsRead_fsRemove_ne _ _ _ hdt, fsRead_fsWrite_ne _ _ _ _ hdt]
  | fsyncFail =>
    simp only [persistRun]
    rw [show fsExists (fsWrite (fsWrite fs tmp "") tmp content) tmp = true by
      simp [fsExists, fsRead_fsWrite_self]]
    simp only [if_true]
    rw [fsRead_fsRemove_ne _ _ _ hdt, fsRead_fsWrite_ne _ _ _ _ hdt,
      fsRead_fsWrite_ne _ _ _ _ hdt]
  | renameFail =>
    simp only [persistRun]
    rw [show fsExists (fsWrite (fsWrite fs tmp "") tmp content) tmp = true by
      simp [fsExists, fsRead_fsWrite_self]]
    simp only [if_true]
    rw [fsRead_fsRemove_ne _ _ _ hdt, fsRead_fsWrite_ne _ _ _ _ hdt,
      fsRead_fsWrite_ne _ _ _ _ hdt]
  | dirFsyncFail => simp [persistRun] at hfail
  | noFail => simp [persistRun] at hfail

theorem persistRun_success_dest (fs : FS) (dest tmp content : String) (fail : PStep)
    (hne : tmp ≠ dest)
    (hok : (persistRun fs dest tmp content fail).2 = true) :
    fsRead (persistRun fs dest tmp content fail).1 dest = some content := by
  have hdt : dest ≠ tmp := Ne.symm hne
  have key : ∀ _ : Unit,
      fsRead (persistRun fs dest tmp content .noFail).1 dest = some content := by
    intro _
    simp only [persistRun, fsRename]
    rw [fsRead_fsWrite_self]
    simp only []
    rw [show fsExists (fsWrite (fsRemove (fsWrite (fsWrite fs tmp "") tmp content) tmp) dest content) tmp = false by
      simp [fsExists, fsRead_fsWrite_ne _ _ _ _ hne, fsRead_fsRemove_self]]
    simp only [Bool.false_eq_true, if_false]
    rw [fsRead_fsWrite_self]
  cases fail with
  | mkdirFail => simp [persistRun] at hok
  | mkstempFail => simp [persistRun] at hok
  | writeFail => simp [persistRun] at hok
  | fsyncFail => simp [persistRun] at hok
  | renameFail => simp [persistRun] at hok
  | dirFsyncFail => exact key ()
  | noFail => exact key ()

theorem persistRun_no_tmp (fs : FS) (dest tmp content : String) (fail : PStep)
    (hne : tmp ≠ dest) (hfresh : fsExists fs tmp = false) :
    fsExists (persistRun fs dest tmp content fail).1 tmp = false := by
  cases fail with
  | mkdirFail => exact hfresh
  | mkstempFail => exact hfresh
  | writeFail =>
    simp only [persistRun]
    rw [show fsExists (fsWrite fs tmp "") tmp = true by
      simp [fsExists, fsRead_fsWrite_self]]
    simp [fsExists, fsRead_fsRemove_self]
  | fsyncFail =>
    simp only [persistRun]
    rw [show fsExists (fsWrite (fsWrite fs tmp "") tmp content) tmp = true by
      simp [fsExists, fsRead_fsWrite_self]]
    simp [fsExists, fsRead_fsRemove_self]
  | renameFail =>
    simp only [persistRun]
    rw [show fsExists (fsWrite (fsWrite fs tmp "") tmp content) tmp = true by
      simp [fsExists, fsRead_fsWrite_self]]
    simp [fsExists, fsRead_fsRemove_self]
  | dirFsyncFail =>
    simp only [persistRun, fsRename]
    rw [fsRead_fsWrite_self]
    simp only []
    rw [show fsExists (fsWrite (fsRemove (fsWrite (fsWrite fs tmp "") tmp content) tmp) dest content) tmp = false by
      simp [fsExists, fsRead_fsWrite_ne _ _ _ _ hne, fsRead_fsRemove_self]]
    simp [fsExists, fsRead_fsWrite_ne _ _ _ _ hne, fsRead_fsRemove_self]
  | noFail =>
    simp only [persistRun, fsRename]
    rw [fsRead_fsWrite_self]
    simp only []
    rw [show fsExists (fsWrite (fsRemove (fsWrite (fsWrite fs tmp "") tmp content) tmp) dest content) tmp = false by
      simp [fsExists, fsRead_fsWrite_ne _ _ _ _ hne, fsRead_fsRemove_self]]
    simp [fsExists, fsRead_fsWrite_ne _ _ _ _ hne, fsRead_fsRemove_self]

theorem persistRun_fails_iff (fs : FS) (dest tmp content : String) (fail : PStep) :
    (persistRun fs dest tmp content fail).2 = false ↔
      fail ≠ .dirFsyncFail ∧ fail ≠ .noFail := by
  cases fail <;> simp [persistRun]

/-! ## Helper lemmas: whitespace and parser congruence -/

theorem skipWs_cons_not (c : Char) (cs : List Char) (h : jws c = false) :
    skipWs (c :: cs) = c :: cs := by
  simp [skipWs, List.dropWhile_cons, h]

theorem skipWs_cons_ws (c : Char) (cs : List Char) (h : jws c = true) :
    skipWs (c :: cs) = skipWs cs := by
  simp [skipWs, List.dropWhile_cons, h]

theorem skipWs_spaces (n : Nat) (cs : List Char) :
    skipWs (spaces n ++ cs) = skipWs cs := by
  induction n with
  | zero => simp [spaces]
  | succ n ih =>
    rw [spaces, List.replicate_succ, List.cons_append,
      skipWs_cons_ws ' ' _ (by decide)]
    exact ih

theorem parseValue_congr (f : Nat) {cs₁ cs₂ : List Char} (h : skipWs cs₁ = skipWs cs₂) :
    parseValue f cs₁ = parseValue f cs₂ := by
  cases f with
  | zero => rfl
  | succ f => simp only [parseValue]; rw [h]

theorem parseItems_congr (f : Nat) {cs₁ cs₂ : List Char} (h : skipWs cs₁ = skipWs cs₂) :
    parseItems f cs₁ = parseItems f cs₂ := by
  cases f with
  | zero => rfl
  | succ f => simp only [parseItems]; rw [parseValue_congr f h]

theorem parseFields_congr (f : Nat) {cs₁ cs₂ : List Char} (h : skipWs cs₁ = skipWs cs₂) :
    parseFields f cs₁ = parseFields f cs₂ := by
  cases f with
  | zero => rfl
  | succ f => simp only [parseFields]; rw [h]

/-! ## Helper lemmas: numerals -/

theorem char_toNat_ofNat_valid (n : Nat) (h : n.isValidChar) :
    (Char.ofNat n).toNat = n := by
  simp only [Char.ofNat, h, dif_pos]
  simp [Char.ofNatAux, Char.toNat, UInt32.toNat, UInt32.ofNatCore]

theorem char_valid_ranges (c : Char) :
    c.toNat < 55296 ∨ (57343 < c.toNat ∧ c.toNat < 1114112) := c.valid

theorem digitsToNat_append (xs : List Char) (c : Char) :
    digitsToNat (xs ++ [c]) = 10 * digitsToNat xs + (c.toNat - 48) := by
  simp [digitsToNat, List.foldl_append]

theorem natToCharsAux_spec : ∀ fuel n, n < fuel →
    (∀ c ∈ natToCharsAux fuel n, isDigitB c = true) ∧
    digitsToNat (natToCharsAux fuel n) = n ∧ natToCharsAux fuel n ≠ [] := by
  intro fuel
  induction fuel with
  | zero => intro n h; omega
  | succ fuel ih =>
    intro n h
    by_cases h10 : n < 10
    · have hv : (48 + n).isValidChar := Or.inl (by omega)
      have htn := char_toNat_ofNat_valid (48 + n) hv
      refine ⟨?_, ?_, by simp [natToCharsAux, h10]⟩
      · intro c hc
        simp [natToCharsAux, h10] at hc
        subst hc
        simp [isDigitB, htn]
        omega
      · simp [natToCharsAux, h10, digitsToNat, htn]
    · have hdiv : n / 10 < fuel := by
        have h1 : n / 10 < n := Nat.div_lt_self (by omega) (by omega)
        omega
      obtain ⟨ha, hb, _⟩ := ih (n / 10) hdiv
      have hv : (48 + n % 10).isValidChar := Or.inl (by
        have := Nat.mod_lt n (show 0 < 10 by omega)
        omega)
      have htn := char_toNat_ofNat_valid (48 + n % 10) hv
      refine ⟨?_, ?_, by simp [natToCharsAux, h10]⟩
      · intro c hc
        simp only [natToCharsAux, h10, if_false, List.mem_append, List.mem_singleton] at hc
        rcases hc with hc | hc
        · exact ha c hc
        · subst hc
          simp [isDigitB, htn]
          have := Nat.mod_lt n (show 0 < 10 by omega)
          omega
      · rw [natToCharsAux]
        simp only [h10, if_false]
        rw [digitsToNat_append, hb, htn]
        omega

theorem natToChars_spec (n : Nat) :
    (∀ c ∈ natToChars n, isDigitB c = true) ∧
    digitsToNat (natToChars n) = n ∧ natToChars n ≠ [] :=
  natToCharsAux_spec (n + 1) n (by omega)

theorem takeWhile_all_append (p : Char → Bool) : ∀ ds rest : List Char,
    (∀ c ∈ ds, p c = true) → (∀ c, rest.head? = some c → p c = false) →
    (ds ++ rest).takeWhile p = ds ∧ (ds ++ rest).dropWhile p = rest := by
  intro ds
  induction ds with
  | nil =>
    intro rest _ hrest
    cases rest with
    | nil => exact ⟨rfl, rfl⟩
    | cons r rs =>
      have := hrest r rfl
      simp [List.takeWhile_cons, List.dropWhile_cons, this]
  | cons d ds ih =>
    intro rest hds hrest
    have hd : p d = true := hds d (List.mem_cons_self d ds)
    obtain ⟨h1, h2⟩ := ih rest (fun c hc => hds c (List.mem_cons_of_mem d hc)) hrest
    simp [List.takeWhile_cons, List.dropWhile_cons, hd, h1, h2]

theorem parseNat_natToChars (n : Nat) (rest : List Char)
    (hrest : ∀ c, rest.head? = some c → isDigitB c = false) :
    parseNat (natToChars n ++ rest) = .ok (n, rest) := by
  obtain ⟨ha, hb, hne⟩ := natToChars_spec n
  obtain ⟨h1, h2⟩ := takeWhile_all_append isDigitB (natToChars n) rest ha hrest
  rw [parseNat, h1]
  cases hcase : natToChars n with
  | nil => exact absurd hcase hne
  | cons d ds =>
    rw [← hcase]
    simp only []
    rw [hb, h2]

/-! ## Helper lemmas: hexadecimal escapes -/

theorem hexVal_hexDigit (k : Nat) (h : k < 16) :
    parseHex4.hexVal (toHex4.hexDigit k) = some k := by
  interval_cases k <;> rfl

theorem parseHex4_toHex4 (n : Nat) (rest : List Char) (h : n < 65536) :
    parseHex4 (toHex4 n ++ rest) = .ok (n, rest) := by
  have h16 : ∀ m : Nat, m % 16 < 16 := fun m => Nat.mod_lt m (by omega)
  simp only [toHex4, List.cons_append, List.nil_append]
  rw [parseHex4, hexVal_hexDigit _ (h16 _), hexVal_hexDigit _ (h16 _),
    hexVal_hexDigit _ (h16 _), hexVal_hexDigit _ (h16 _)]
  simp only [Except.ok.injEq, Prod.mk.injEq, and_true]
  have a1 : n = 16 * (n / 16) + n % 16 := (Nat.div_add_mod n 16).symm
  have a2 : n / 16 = 16 * (n / 16 / 16) + n / 16 % 16 := (Nat.div_add_mod _ 16).symm
  have a3 : n / 16 / 16 = n / 256 := by rw [Nat.div_div_eq_div_mul]
  have a4 : n / 256 = 16 * (n / 256 / 16) + n / 256 % 16 := (Nat.div_add_mod _ 16).symm
  have a5 : n / 256 / 16 = n / 4096 := by rw [Nat.div_div_eq_div_mul]
  have a6 : n / 4096 < 16 := Nat.div_lt_of_lt_mul (by omega)
  have a7 : n / 4096 % 16 = n / 4096 := Nat.mod_eq_of_lt a6
  omega

/-! ## Helper lemmas: string escaping round trip -/

theorem escapeStr_length : ∀ s : List Char, s.length ≤ (escapeStr s).length := by
  intro s
  induction s with
  | nil => simp [escapeStr]
  | cons c cs ih =>
    rw [escapeStr, List.length_append, List.length_cons]
    have : 1 ≤ (escapeChar c).length := by
      unfold escapeChar
      split_ifs <;> simp
    omega

theorem string_mk_data (s : String) : String.mk s.data = s := by cases s; rfl

theorem parseStrBody_escape (s : List Char) : ∀ (f : Nat) (rest : List Char),
    s.length < f → parseStrBody f (escapeStr s ++ '"' :: rest) = .ok (s, rest) := by
  induction s with
  | nil =>
    intro f rest hf
    match f, hf with
    | f + 1, _ => simp [escapeStr, parseStrBody]
  | cons c s ih0 =>
    intro f rest hf
    match f, hf with
    | f + 1, hf =>
    have hfs : s.length < f := by simp at hf; omega
    have ih := ih0 f rest hfs
    rw [escapeStr, List.append_assoc]
    by_cases h1 : c = '"'
    · have hesc : escapeChar c = ['\\', '"'] := by unfold escapeChar; rw [if_pos h1]
      rw [hesc]
      subst h1
      simp [parseStrBody, ih, Except.map]
    · by_cases h2 : c = '\\'
      · have hesc : escapeChar c = ['\\', '\\'] := by
          unfold escapeChar; rw [if_neg h1, if_pos h2]
        rw [hesc]
        subst h2
        simp [parseStrBody, ih, Except.map]
      · by_cases h3 : c = '\n'
        · have hesc : escapeChar c = ['\\', 'n'] := by
            unfold escapeChar; rw [if_neg h1, if_neg h2, if_pos h3]
          rw [hesc]
          subst h3
          simp [parseStrBody, ih, Except.map]
        · by_cases h4 : c = '\r'
          · have hesc : escapeChar c = ['\\', 'r'] := by
              unfold escapeChar; rw [if_neg h1, if_neg h2, if_neg h3, if_pos h4]
            rw [hesc]
            subst h4
            simp [parseStrBody, ih, Except.map]
          · by_cases h5 : c = '\t'
            · have hesc : escapeChar c = ['\\', 't'] := by
                unfold escapeChar
                rw [if_neg h1, if_neg h2, if_neg h3, if_neg h4, if_pos h5]
              rw [hesc]
              subst h5
              simp [parseStrBody, ih, Except.map]
            · by_cases h6 : c = Char.ofNat 8
              · have hesc : escapeChar c = ['\\', 'b'] := by
                  unfold escapeChar
                  rw [if_neg h1, if_neg h2, if_neg h3, if_neg h4, if_neg h5, if_pos h6]
                rw [hesc]
                subst h6
                simp [parseStrBody, ih, Except.map]
              · by_cases h7 : c = Char.ofNat 12
                · have hesc : escapeChar c = ['\\', 'f'] := by
                    unfold escapeChar
                    rw [if_neg h1, if_neg h2, if_neg h3, if_neg h4, if_neg h5,
                      if_neg h6, if_pos h7]
                  rw [hesc]
                  subst h7
                  simp [parseStrBody, ih, Except.map]
                · by_cases h8 : 32 ≤ c.toNat ∧ c.toNat ≤ 126
                  · have hesc : escapeChar c = [c] := by
                      unfold escapeChar
                      rw [if_neg h1, if_neg h2, if_neg h3, if_neg h4, if_neg h5,
                        if_neg h6, if_neg h7, if_pos h8]
                    rw [hesc]
                    simp only [List.cons_append, List.nil_append, parseStrBody]
                    rw [if_neg h1, if_neg h2, if_neg (by omega : ¬ c.toNat < 32)]
                    simp [ih, Except.map]
                  · by_cases h9 : c.toNat < 65536
                    · have hesc : escapeChar c = '\\' :: 'u' :: toHex4 c.toNat := by
                        unfold escapeChar
                        rw [if_neg h1, if_neg h2, if_neg h3, if_neg h4, if_neg h5,
                          if_neg h6, if_neg h7, if_neg h8, if_pos h9]
                      rw [hesc]
                      simp only [List.cons_append, List.nil_append, List.append_assoc,
                        parseStrBody]
                      have hhex := parseHex4_toHex4 c.toNat (escapeStr s ++ '"' :: rest) h9
                      have hval := char_valid_ranges c
                      have hs1 : ¬ (55296 ≤ c.toNat ∧ c.toNat < 56320) := by omega
                      have hs2 : ¬ (56320 ≤ c.toNat ∧ c.toNat < 57344) := by omega
                      simp [hhex, hs1, hs2, ih, Char.ofNat_toNat, Except.map]
                    · have hval := char_valid_ranges c
                      have hub : c.toNat < 1114112 := by omega
                      obtain ⟨q, hqdef⟩ : ∃ q, (c.toNat - 65536) / 1024 = q := ⟨_, rfl⟩
                      obtain ⟨r, hrdef⟩ : ∃ r, (c.toNat - 65536) % 1024 = r := ⟨_, rfl⟩
                      have hq : q < 1024 := by
                        rw [← hqdef]
                        exact Nat.div_lt_of_lt_mul (by omega)
                      have hr : r < 1024 := by
                        rw [← hrdef]
                        exact Nat.mod_lt _ (by omega)
                      have hdm := Nat.div_add_mod (c.toNat - 65536) 1024
                      rw [hqdef, hrdef] at hdm
                      have hesc : escapeChar c =
                          '\\' :: 'u' :: (toHex4 (55296 + q)
                            ++ '\\' :: 'u' :: toHex4 (56320 + r)) := by
                        unfold escapeChar
                        rw [if_neg h1, if_neg h2, if_neg h3, if_neg h4, if_neg h5,
                          if_neg h6, if_neg h7, if_neg h8, if_neg h9, hqdef, hrdef]
                      rw [hesc]
                      simp only [List.cons_append, List.nil_append, List.append_assoc,
                        parseStrBody]
                      have hhex1 := parseHex4_toHex4 (55296 + q)
                        ('\\' :: 'u' :: (toHex4 (56320 + r) ++
                          (escapeStr s ++ '"' :: rest))) (by omega)
                      have hhex2 := parseHex4_toHex4 (56320 + r)
                        (escapeStr s ++ '"' :: rest) (by omega)
                      have hs1 : 55296 ≤ 55296 + q ∧ 55296 + q < 56320 := by omega
                      have hs2 : 56320 ≤ 56320 + r ∧ 56320 + r < 57344 := by omega
                      have harg : 65536 + (55296 + q - 55296) * 1024 +
                          (56320 + r - 56320) = c.toNat := by omega
                      have harg2 : 65536 + q * 1024 + r = c.toNat := by omega
                      simp [hhex1, hhex2, hs1, hs2, harg, harg2, ih,
                        Char.ofNat_toNat, Except.map]

/-! ## Helper lemmas: heads of serialized values -/

theorem boundary_cons (c0 : Char) (cs : List Char) (h : isDigitB c0 = false) :
    ∀ c, (c0 :: cs).head? = some c → isDigitB c = false := by
  intro c hc
  simp only [List.head?_cons, Option.some.injEq] at hc
  rw [← hc]
  exact h

theorem isDigitB_bounds {d : Char} (h : isDigitB d = true) :
    48 ≤ d.toNat ∧ d.toNat ≤ 57 := by
  simpa [isDigitB] using h

theorem isDigitB_not_ws {d : Char} (h : isDigitB d = true) : jws d = false := by
  have hb := isDigitB_bounds h
  simp only [jws, Bool.or_eq_false_iff, decide_eq_false_iff_not]
  refine ⟨⟨⟨?_, ?_⟩, ?_⟩, ?_⟩ <;>
    (intro hh; rw [hh] at hb; exact absurd hb (by decide))

theorem isDigitB_ne {d : Char} (h : isDigitB d = true) (c : Char)
    (hc : 57 < c.toNat ∨ c.toNat < 48) : d ≠ c := by
  have hb := isDigitB_bounds h
  intro hh
  rw [hh] at hb
  omega

theorem parseValue_digit_head (f : Nat) (c : Char) (cs : List Char)
    (hd : isDigitB c = true) :
    parseValue (f + 1) (c :: cs) =
      (parseNat (c :: cs)).map (fun p => (.num (p.1 : Int), p.2)) := by
  have hb := isDigitB_bounds hd
  simp only [parseValue, skipWs_cons_not c cs (isDigitB_not_ws hd)]
  rw [if_neg (isDigitB_ne hd 'n' (by left; decide)),
    if_neg (isDigitB_ne hd 't' (by left; decide)),
    if_neg (isDigitB_ne hd 'f' (by left; decide)),
    if_neg (isDigitB_ne hd '"' (by right; decide)),
    if_neg (isDigitB_ne hd '[' (by left; decide)),
    if_neg (isDigitB_ne hd (Char.ofNat 123) (by left; decide)),
    if_neg (isDigitB_ne hd '-' (by right; decide)),
    if_pos hd]

theorem dumpVal_head (ind : Nat) (v : JValue) :
    ∃ c cs, dumpVal ind v = c :: cs ∧ jws c = false ∧ c ≠ ']' ∧ c ≠ '}' := by
  cases v with
  | null => exact ⟨'n', _, rfl, by decide, by decide, by decide⟩
  | jbool b =>
    cases b
    case true => exact ⟨'t', _, rfl, by decide, by decide, by decide⟩
    case false => exact ⟨'f', _, rfl, by decide, by decide, by decide⟩
  | num i =>
    by_cases hneg : i < 0
    · refine ⟨'-', natToChars i.natAbs, ?_, by decide, by decide, by decide⟩
      simp [dumpVal, intToChars, hneg]
    · obtain ⟨hdig, _, hne⟩ := natToChars_spec i.natAbs
      cases hc : natToChars i.natAbs with
      | nil => exact absurd hc hne
      | cons d ds =>
        have hd : isDigitB d = true := hdig d (by rw [hc]; exact List.mem_cons_self d ds)
        refine ⟨d, ds, ?_, isDigitB_not_ws hd, isDigitB_ne hd ']' (by left; decide),
          isDigitB_ne hd (Char.ofNat 125) (by left; decide)⟩
        simp [dumpVal, intToChars, hneg, hc]
  | str s => exact ⟨'"', _, rfl, by decide, by decide, by decide⟩
  | arr xs =>
    cases xs with
    | nil => exact ⟨'[', _, rfl, by decide, by decide, by decide⟩
    | cons x xs => exact ⟨'[', _, rfl, by decide, by decide, by decide⟩
  | obj fs =>
    cases fs with
    | nil => exact ⟨Char.ofNat 123, _, rfl, by decide, by decide, by decide⟩
    | cons f fs => exact ⟨Char.ofNat 123, _, rfl, by decide, by decide, by decide⟩

theorem headIsB_false_of_ne (c : Char) (cs : List Char) (c' : Char) (h : c ≠ c') :
    headIsB (c :: cs) c' = false := by
  simp [headIsB, h]

/-! ## Helper lemmas: serialized length bounds the structural size -/

mutual
theorem sizeJ_le_dumpVal : ∀ (v : JValue) (ind : Nat),
    sizeJ v ≤ (dumpVal ind v).length + 1
  | .null, _ => by simp [sizeJ, dumpVal]
  | .jbool true, _ => by simp [sizeJ, dumpVal]
  | .jbool false, _ => by simp [sizeJ, dumpVal]
  | .num i, _ => by simp [sizeJ]
  | .str s, _ => by simp [sizeJ]
  | .arr xs, ind => by
    cases xs with
    | nil => simp [sizeJ, sizeItems, dumpVal]
    | cons x xs =>
      have h := sizeItems_le_dumpItems (x :: xs) (ind + 2) (by omega)
      rw [sizeJ, dumpVal]
      simp only [List.length_cons, List.length_append]
      omega
  | .obj fs, ind => by
    cases fs with
    | nil => simp [sizeJ, sizeFields, dumpVal]
    | cons f fs =>
      have h := sizeFields_le_dumpFields (f :: fs) (ind + 2) (by omega)
      rw [sizeJ, dumpVal]
      simp only [List.length_cons, List.length_append]
      omega
theorem sizeItems_le_dumpItems : ∀ (xs : List JValue) (ind : Nat), 2 ≤ ind →
    sizeItems xs ≤ (dumpItems ind xs).length
  | [], _, _ => by simp [sizeItems, dumpItems]
  | [x], ind, hind => by
    have h := sizeJ_le_dumpVal x ind
    rw [sizeItems, sizeItems, dumpItems]
    simp only [List.length_append, spaces, List.length_replicate]
    omega
  | x :: y :: xs, ind, hind => by
    have h1 := sizeJ_le_dumpVal x ind
    have h2 := sizeItems_le_dumpItems (y :: xs) ind hind
    rw [sizeItems, dumpItems]
    simp only [List.length_append, List.length_cons, spaces, List.length_replicate]
    omega
theorem sizeFields_le_dumpFields : ∀ (fs : List (String × JValue)) (ind : Nat), 2 ≤ ind →
    sizeFields fs ≤ (dumpFields ind fs).length
  | [], _, _ => by simp [sizeFields, dumpFields]
  | [f], ind, hind => by
    have h := sizeJ_le_dumpVal f.2 ind
    rw [sizeFields, sizeFields, dumpFields]
    simp only [List.length_append, List.length_cons, spaces, List.length_replicate,
      dumpStrChars]
    omega
  | f :: g :: fs, ind, hind => by
    have h1 := sizeJ_le_dumpVal f.2 ind
    have h2 := sizeFields_le_dumpFields (g :: fs) ind hind
    rw [sizeFields, dumpFields]
    simp only [List.length_append, List.length_cons, spaces, List.length_replicate,
      dumpStrChars]
    omega
end

theorem skipWs_quote (cs : List Char) : skipWs ('"' :: cs) = '"' :: cs :=
  skipWs_cons_not _ _ (by decide)

theorem skipWs_colon (cs : List Char) : skipWs (':' :: cs) = ':' :: cs :=
  skipWs_cons_not _ _ (by decide)

theorem skipWs_comma (cs : List Char) : skipWs (',' :: cs) = ',' :: cs :=
  skipWs_cons_not _ _ (by decide)

theorem skipWs_rbracket (cs : List Char) : skipWs (']' :: cs) = ']' :: cs :=
  skipWs_cons_not _ _ (by decide)

theorem skipWs_rbrace (cs : List Char) : skipWs (Char.ofNat 125 :: cs) = Char.ofNat 125 :: cs :=
  skipWs_cons_not _ _ (by decide)

theorem skipWs_lbracket (cs : List Char) : skipWs ('[' :: cs) = '[' :: cs :=
  skipWs_cons_not _ _ (by decide)

theorem skipWs_lbrace (cs : List Char) : skipWs (Char.ofNat 123 :: cs) = Char.ofNat 123 :: cs :=
  skipWs_cons_not _ _ (by decide)

theorem skipWs_minus (cs : List Char) : skipWs ('-' :: cs) = '-' :: cs :=
  skipWs_cons_not _ _ (by decide)

theorem skipWs_n (cs : List Char) : skipWs ('n' :: cs) = 'n' :: cs :=
  skipWs_cons_not _ _ (by decide)

theorem skipWs_t (cs : List Char) : skipWs ('t' :: cs) = 't' :: cs :=
  skipWs_cons_not _ _ (by decide)

theorem skipWs_f (cs : List Char) : skipWs ('f' :: cs) = 'f' :: cs :=
  skipWs_cons_not _ _ (by decide)

theorem skipWs_nl (cs : List Char) : skipWs ('\n' :: cs) = skipWs cs :=
  skipWs_cons_ws _ _ (by decide)

theorem skipWs_sp (cs : List Char) : skipWs (' ' :: cs) = skipWs cs :=
  skipWs_cons_ws _ _ (by decide)

theorem skipWs_items_head (ind : Nat) (x : JValue) (xs : List JValue) (tail : List Char) :
    ∃ c0 cs0, skipWs (dumpItems ind (x :: xs) ++ tail) = c0 :: cs0 ∧
      c0 ≠ ']' ∧ c0 ≠ Char.ofNat 125 := by
  obtain ⟨c0, cs0, hdump, hws0, hne1, hne2⟩ := dumpVal_head ind x
  cases xs with
  | nil =>
    refine ⟨c0, cs0 ++ tail, ?_, hne1, hne2⟩
    simp only [dumpItems, hdump, List.append_assoc, List.cons_append, skipWs_spaces,
      skipWs_cons_not, hws0]
  | cons y ys =>
    refine ⟨c0, cs0 ++ (',' :: '\n' :: (dumpItems ind (y :: ys) ++ tail)), ?_, hne1, hne2⟩
    simp only [dumpItems, hdump, List.append_assoc, List.cons_append, skipWs_spaces,
      skipWs_cons_not, hws0]

theorem skipWs_fields_head (ind : Nat) (f0 : String × JValue)
    (fs : List (String × JValue)) (tail : List Char) :
    ∃ cs0, skipWs (dumpFields ind (f0 :: fs) ++ tail) = '"' :: cs0 := by
  cases fs with
  | nil =>
    refine ⟨escapeStr f0.1.data ++ ('"' :: ':' :: ' ' :: (dumpVal ind f0.2 ++ tail)), ?_⟩
    simp only [dumpFields, dumpStrChars, List.append_assoc, List.cons_append,
      List.nil_append, skipWs_spaces, skipWs_quote]
  | cons g gs =>
    refine ⟨escapeStr f0.1.data ++ ('"' :: ':' :: ' ' ::
      (dumpVal ind f0.2 ++ (',' :: '\n' :: (dumpFields ind (g :: gs) ++ tail)))), ?_⟩
    simp only [dumpFields, dumpStrChars, List.append_assoc, List.cons_append,
      List.nil_append, skipWs_spaces, skipWs_quote]

/-! ## The parser inverts the serializer -/

mutual
theorem parse_dump : ∀ (v : JValue) (ind f : Nat) (rest : List Char),
    jwfB v = true → (∀ c, rest.head? = some c → isDigitB c = false) → sizeJ v ≤ f →
    parseValue f (dumpVal ind v ++ rest) = .ok (v, rest)
  | .null => by
    intro ind f rest hwf hbd hsz
    obtain ⟨f, rfl⟩ : ∃ g, f = g + 1 := ⟨f - 1, by rw [sizeJ] at hsz; omega⟩
    simp only [dumpVal, List.cons_append, List.nil_append, parseValue, skipWs_n]
    simp [dropLit]
  | .jbool true => by
    intro ind f rest hwf hbd hsz
    obtain ⟨f, rfl⟩ : ∃ g, f = g + 1 := ⟨f - 1, by rw [sizeJ] at hsz; omega⟩
    simp only [dumpVal, List.cons_append, List.nil_append, parseValue, skipWs_t]
    simp [dropLit]
  | .jbool false => by
    intro ind f rest hwf hbd hsz
    obtain ⟨f, rfl⟩ : ∃ g, f = g + 1 := ⟨f - 1, by rw [sizeJ] at hsz; omega⟩
    simp only [dumpVal, List.cons_append, List.nil_append, parseValue, skipWs_f]
    simp [dropLit]
  | .num i => by
    intro ind f rest hwf hbd hsz
    obtain ⟨f, rfl⟩ : ∃ g, f = g + 1 := ⟨f - 1, by rw [sizeJ] at hsz; omega⟩
    by_cases hneg : i < 0
    · rw [dumpVal, intToChars, if_pos hneg, List.cons_append]
      simp only [parseValue, skipWs_minus]
      simp only [Char.reduceEq, reduceIte]
      rw [parseNat_natToChars i.natAbs rest hbd]
      simp only [Except.map]
      rw [show (-(i.natAbs : Int)) = i by omega]
    · rw [dumpVal, intToChars, if_neg hneg]
      obtain ⟨hdig, _, hne⟩ := natToChars_spec i.natAbs
      cases hc : natToChars i.natAbs with
      | nil => exact absurd hc hne
      | cons d ds =>
        have hd : isDigitB d = true :=
          hdig d (by rw [hc]; exact List.mem_cons_self d ds)
        rw [List.cons_append, parseValue_digit_head f d (ds ++ rest) hd]
        rw [show d :: (ds ++ rest) = natToChars i.natAbs ++ rest by rw [hc]; rfl]
        rw [parseNat_natToChars i.natAbs rest hbd]
        simp only [Except.map]
        rw [show ((i.natAbs : Nat) : Int) = i by omega]
  | .str s => by
    intro ind f rest hwf hbd hsz
    obtain ⟨f, rfl⟩ : ∃ g, f = g + 1 := ⟨f - 1, by rw [sizeJ] at hsz; omega⟩
    simp only [dumpVal, dumpStrChars, List.cons_append, List.append_assoc,
      List.nil_append, parseValue, skipWs_quote]
    simp only [Char.reduceEq, reduceIte]
    rw [parseStrBody_escape s.data _ rest (by
      have := escapeStr_length s.data
      simp only [List.length_append, List.length_cons]
      omega)]
    simp [Except.map, string_mk_data]
  | .arr xs => by
    intro ind f rest hwf hbd hsz
    obtain ⟨f, rfl⟩ : ∃ g, f = g + 1 := ⟨f - 1, by rw [sizeJ] at hsz; omega⟩
    cases xs with
    | nil =>
      simp only [dumpVal, List.cons_append, List.nil_append, parseValue, skipWs_lbracket]
      simp only [Char.reduceEq, reduceIte, skipWs_rbracket]
      simp [headIsB]
    | cons x xs =>
      have hwl : jwfListB (x :: xs) = true := hwf
      have hszl : sizeItems (x :: xs) ≤ f := by rw [sizeJ] at hsz; omega
      rw [dumpVal]
      simp only [List.cons_append, List.append_assoc, List.nil_append]
      simp only [parseValue, skipWs_lbracket]
      simp only [Char.reduceEq, reduceIte]
      obtain ⟨c0, cs0, hpeek, hne1, _⟩ :=
        skipWs_items_head (ind + 2) x xs ('\n' :: (spaces ind ++ (']' :: rest)))
      rw [skipWs_nl, hpeek, headIsB_false_of_ne c0 cs0 ']' hne1]
      simp only [Bool.false_eq_true, if_false]
      rw [parseItems_congr f (skipWs_nl (dumpItems (ind + 2) (x :: xs) ++
        ('\n' :: (spaces ind ++ (']' :: rest)))))]
      rw [parse_dump_items (x :: xs) (ind + 2) ind f rest (by simp) hwl hszl]
      simp [Except.map]
  | .obj fs => by
    intro ind f rest hwf hbd hsz
    obtain ⟨f, rfl⟩ : ∃ g, f = g + 1 := ⟨f - 1, by rw [sizeJ] at hsz; omega⟩
    cases fs with
    | nil =>
      simp only [dumpVal, List.cons_append, List.nil_append, parseValue, skipWs_lbrace]
      simp only [Char.reduceEq, reduceIte, skipWs_rbrace]
      simp [headIsB, dedupFields]
    | cons f0 fs =>
      rw [jwfB, Bool.and_eq_true] at hwf
      have hszf : sizeFields (f0 :: fs) ≤ f := by rw [sizeJ] at hsz; omega
      rw [dumpVal]
      simp only [List.cons_append, List.append_assoc, List.nil_append]
      simp only [parseValue, skipWs_lbrace]
      simp only [Char.reduceEq, reduceIte]
      obtain ⟨cs0, hpeek⟩ :=
        skipWs_fields_head (ind + 2) f0 fs ('\n' :: (spaces ind ++ (Char.ofNat 125 :: rest)))
      rw [skipWs_nl, hpeek, headIsB_false_of_ne '"' cs0 (Char.ofNat 125) (by decide)]
      simp only [Bool.false_eq_true, if_false]
      rw [parseFields_congr f (skipWs_nl (dumpFields (ind + 2) (f0 :: fs) ++
        ('\n' :: (spaces ind ++ (Char.ofNat 125 :: rest)))))]
      rw [parse_dump_fields (f0 :: fs) (ind + 2) ind f rest (by simp) hwf.2 hszf]
      simp only [Except.map]
      rw [dedupFields_eq_self (f0 :: fs) ((strNodup_iff _).mp hwf.1)]
theorem parse_dump_items : ∀ (xs : List JValue) (ind indO f : Nat) (rest : List Char),
    xs ≠ [] → jwfListB xs = true → sizeItems xs ≤ f →
    parseItems f (dumpItems ind xs ++ '\n' :: (spaces indO ++ (']' :: rest))) =
      .ok (xs, rest)
  | [] => by
    intro _ _ _ _ hne _ _
    exact absurd rfl hne
  | [x] => by
    intro ind indO f rest _ hwl hsz
    rw [sizeItems, sizeItems] at hsz
    obtain ⟨f, rfl⟩ : ∃ g, f = g + 1 := ⟨f - 1, by omega⟩
    rw [jwfListB, Bool.and_eq_true] at hwl
    rw [dumpItems, List.append_assoc]
    simp only [parseItems]
    rw [parseValue_congr f (skipWs_spaces ind _)]
    rw [parse_dump x ind f ('\n' :: (spaces indO ++ (']' :: rest)))
      hwl.1 (boundary_cons '\n' _ (by decide)) (by omega)]
    simp only []
    rw [skipWs_nl, skipWs_spaces, skipWs_rbracket]
    simp [Char.reduceEq]
  | x :: y :: xs => by
    intro ind indO f rest _ hwl hsz
    rw [sizeItems] at hsz
    obtain ⟨f, rfl⟩ : ∃ g, f = g + 1 := ⟨f - 1, by omega⟩
    rw [jwfListB, Bool.and_eq_true] at hwl
    rw [dumpItems]
    simp only [List.append_assoc, List.cons_append]
    simp only [parseItems]
    rw [parseValue_congr f (skipWs_spaces ind _)]
    rw [parse_dump x ind f (',' :: ('\n' :: (dumpItems ind (y :: xs) ++
        ('\n' :: (spaces indO ++ (']' :: rest))))))
      hwl.1 (boundary_cons ',' _ (by decide)) (by omega)]
    simp only []
    rw [skipWs_comma]
    simp only [Char.reduceEq, reduceIte]
    rw [parseItems_congr f (skipWs_nl (dumpItems ind (y :: xs) ++
      ('\n' :: (spaces indO ++ (']' :: rest)))))]
    rw [parse_dump_items (y :: xs) ind indO f rest (by simp) hwl.2 (by omega)]
theorem parse_dump_fields : ∀ (fs : List (String × JValue)) (ind indO f : Nat)
    (rest : List Char),
    fs ≠ [] → jwfFieldsB fs = true → sizeFields fs ≤ f →
    parseFields f (dumpFields ind fs ++ '\n' :: (spaces indO ++ (Char.ofNat 125 :: rest))) =
      .ok (fs, rest)
  | [] => by
    intro _ _ _ _ hne _ _
    exact absurd rfl hne
  | [f0] => by
    intro ind indO f rest _ hwl hsz
    rw [sizeFields, sizeFields] at hsz
    obtain ⟨f, rfl⟩ : ∃ g, f = g + 1 := ⟨f - 1, by omega⟩
    rw [jwfFieldsB, Bool.and_eq_true] at hwl
    rw [dumpFields, dumpStrChars]
    simp only [List.append_assoc, List.cons_append, List.nil_append]
    simp only [parseFields]
    rw [skipWs_spaces, skipWs_quote]
    simp only [Char.reduceEq, reduceIte]
    rw [parseStrBody_escape f0.1.data _
      (':' :: ' ' :: (dumpVal ind f0.2 ++ ('\n' :: (spaces indO ++ (Char.ofNat 125 :: rest)))))
      (by
        have := escapeStr_length f0.1.data
        simp only [List.length_append, List.length_cons]
        omega)]
    simp only []
    rw [skipWs_colon]
    simp only [Char.reduceEq, reduceIte]
    rw [parseValue_congr f (skipWs_sp (dumpVal ind f0.2 ++
      ('\n' :: (spaces indO ++ (Char.ofNat 125 :: rest)))))]
    rw [parse_dump f0.2 ind f ('\n' :: (spaces indO ++ (Char.ofNat 125 :: rest)))
      hwl.1 (boundary_cons '\n' _ (by decide)) (by omega)]
    simp only []
    rw [skipWs_nl, skipWs_spaces, skipWs_rbrace]
    simp [Char.reduceEq, string_mk_data]
  | f0 :: g0 :: fs => by
    intro ind indO f rest _ hwl hsz
    rw [sizeFields] at hsz
    obtain ⟨f, rfl⟩ : ∃ g, f = g + 1 := ⟨f - 1, by omega⟩
    rw [jwfFieldsB, Bool.and_eq_true] at hwl
    rw [dumpFields, dumpStrChars]
    simp only [List.append_assoc, List.cons_append, List.nil_append]
    simp only [parseFields]
    rw [skipWs_spaces, skipWs_quote]
    simp only [Char.reduceEq, reduceIte]
    rw [parseStrBody_escape f0.1.data _
      (':' :: ' ' :: (dumpVal ind f0.2 ++ (',' :: ('\n' :: (dumpFields ind (g0 :: fs) ++
        ('\n' :: (spaces indO ++ (Char.ofNat 125 :: rest))))))))
      (by
        have := escapeStr_length f0.1.data
        simp only [List.length_append, List.length_cons]
        omega)]
    simp only []
    rw [skipWs_colon]
    simp only [Char.reduceEq, reduceIte]
    rw [parseValue_congr f (skipWs_sp (dumpVal ind f0.2 ++ (',' :: ('\n' ::
      (dumpFields ind (g0 :: fs) ++ ('\n' :: (spaces indO ++ (Char.ofNat 125 :: rest))))))))]
    rw [parse_dump f0.2 ind f (',' :: ('\n' :: (dumpFields ind (g0 :: fs) ++
        ('\n' :: (spaces indO ++ (Char.ofNat 125 :: rest))))))
      hwl.1 (boundary_cons ',' _ (by decide)) (by omega)]
    simp only []
    rw [skipWs_comma]
    simp only [Char.reduceEq, reduceIte]
    rw [parseFields_congr f (skipWs_nl (dumpFields ind (g0 :: fs) ++
      ('\n' :: (spaces indO ++ (Char.ofNat 125 :: rest)))))]
    rw [parse_dump_fields (g0 :: fs) ind indO f rest (by simp) hwl.2 (by omega)]
end

theorem jsonLoads_dump (v : JValue) (hwf : jwfB v = true) :
    jsonLoads (String.mk (dumpVal 0 v)) = .ok v := by
  have hlen := sizeJ_le_dumpVal v 0
  have h := parse_dump v 0 ((dumpVal 0 v).length + 1) [] hwf
    (by intro c hc; simp at hc) (by omega)
  rw [List.append_nil] at h
  rw [jsonLoads]
  rw [show (String.mk (dumpVal 0 v)).data = dumpVal 0 v from rfl, h]
  simp [skipWs]

theorem dropWhile_eq_self_of_head (p : Char → Bool) (l : List Char)
    (h : ∀ c, l.head? = some c → p c = false) : l.dropWhile p = l := by
  cases l with
  | nil => rfl
  | cons c cs => simp [List.dropWhile_cons, h c rfl]

theorem pyStrip_id (s : List Char) (h1 : ∀ c, s.head? = some c → pyWsChar c = false)
    (h2 : ∀ c, s.getLast? = some c → pyWsChar c = false) :
    pyStrip (String.mk s) = String.mk s := by
  rw [pyStrip, show (String.mk s).data = s from rfl]
  rw [dropWhile_eq_self_of_head _ _ h1]
  rw [dropWhile_eq_self_of_head _ _ (by
    intro c hc
    apply h2
    rwa [← List.head?_reverse])]
  rw [List.reverse_reverse]

theorem dumpObj_strip (fs : List (String × JValue)) :
    pyStrip (String.mk (dumpVal 0 (.obj fs))) = String.mk (dumpVal 0 (.obj fs)) := by
  apply pyStrip_id
  · intro c hc
    cases fs with
    | nil =>
      simp only [dumpVal, List.head?_cons, Option.some.injEq] at hc
      rw [← hc]; decide
    | cons f fs =>
      simp only [dumpVal, List.head?_cons, Option.some.injEq] at hc
      rw [← hc]; decide
  · intro c hc
    rw [← List.head?_reverse] at hc
    cases fs with
    | nil =>
      simp only [dumpVal] at hc
      rw [show ([Char.ofNat 123, Char.ofNat 125] : List Char).reverse
        = [Char.ofNat 125, Char.ofNat 123] from rfl] at hc
      simp only [List.head?_cons, Option.some.injEq] at hc
      rw [← hc]; decide
    | cons f fs =>
      simp only [dumpVal, spaces, List.replicate, List.nil_append, List.reverse_cons,
        List.reverse_append, List.reverse_nil, List.append_assoc, List.cons_append,
        List.singleton_append, List.head?_cons, Option.some.injEq] at hc
      rw [← hc]; decide

theorem dumpThreads_strip (ts : List (String × JValue)) :
    pyStrip (dumpThreadsStr ts) = dumpThreadsStr ts := by
  rw [dumpThreadsStr, jnorm]
  exact dumpObj_strip _

theorem dumpThreads_ne_empty (ts : List (String × JValue)) :
    dumpThreadsStr ts ≠ "" := by
  rw [dumpThreadsStr, jnorm]
  cases hX : sortFields (jnormFields ts) with
  | nil =>
    intro hcon
    have : (String.mk (dumpVal 0 (.obj []))).data = ("" : String).data := by rw [hcon]
    simp [dumpVal] at this
  | cons f fs =>
    intro hcon
    have : (String.mk (dumpVal 0 (.obj (f :: fs)))).data = ("" : String).data := by
      rw [hcon]
    simp [dumpVal] at this

theorem jnorm_obj_keys (ts : List (String × JValue)) :
    ((sortFields (jnormFields ts)).map Prod.fst).Perm (ts.map Prod.fst) := by
  have h1 := (sortFields_perm (jnormFields ts)).map Prod.fst
  rw [jnormFields_map_fst] at h1
  exact h1

theorem loadThreads_of_dump (fs : FS) (path : String) (ts : List (String × JValue))
    (hread : fsRead fs path = some (dumpThreadsStr ts))
    (hwf : jwfB (.obj ts) = true) :
    loadThreads fs path = .ok (sortFields (jnormFields ts)) := by
  rw [loadThreads, hread]
  simp only [dumpThreads_strip]
  rw [if_neg (dumpThreads_ne_empty ts)]
  have hwfn : jwfB (jnorm (.obj ts)) = true := jwfB_jnorm _ hwf
  have hj : jsonLoads (String.mk (dumpVal 0 (jnorm (.obj ts)))) = .ok (jnorm (.obj ts)) :=
    jsonLoads_dump _ hwfn
  rw [dumpThreadsStr, hj]
  rw [show jnorm (.obj ts) = .obj (sortFields (jnormFields ts)) from rfl]
  simp only []
  rw [dedupFields_eq_self]
  exact (jnorm_obj_keys ts).nodup_iff.mpr (jwfB_obj_nodup hwf)

/-! ## Helper lemmas: the heap model -/

theorem getElem?_prefix {l ext : List Cell} {i : Nat} {c : Cell}
    (h : l[i]? = some c) : (l ++ ext)[i]? = some c := by
  have hlt : i < l.length := by
    by_contra hge
    rw [List.getElem?_eq_none (by omega)] at h
    exact Option.noConfusion h
  rw [List.getElem?_append_left hlt]
  exact h

theorem readGoList_nil (h : Heap) (f : Nat) : readGoList h f [] = some [] := by
  rw [readGoList.eq_def]; cases f <;> rfl

theorem readGoList_zero_cons (h : Heap) (c : Nat) (cs : List Nat) :
    readGoList h 0 (c :: cs) = none := by
  rw [readGoList.eq_def]

theorem readGoList_succ_cons (h : Heap) (f : Nat) (c : Nat) (cs : List Nat) :
    readGoList h (f + 1) (c :: cs) =
      ((readGo h f c).bind fun v => (readGoList h f cs).map fun vs => v :: vs) := by
  rw [readGoList.eq_def]
  cases hv0 : readGo h f c <;> cases hv1 : readGoList h f cs <;> simp [hv0, hv1]

theorem readGoFields_nil (h : Heap) (f : Nat) : readGoFields h f [] = some [] := by
  rw [readGoFields.eq_def]; cases f <;> rfl

theorem readGoFields_zero_cons (h : Heap) (f0 : String × Nat) (fs : List (String × Nat)) :
    readGoFields h 0 (f0 :: fs) = none := by
  rw [readGoFields.eq_def]

theorem readGoFields_succ_cons (h : Heap) (f : Nat) (f0 : String × Nat)
    (fs : List (String × Nat)) :
    readGoFields h (f + 1) (f0 :: fs) =
      ((readGo h f f0.2).bind fun v => (readGoFields h f fs).map fun vs => (f0.1, v) :: vs) := by
  rw [readGoFields.eq_def]
  cases hv0 : readGo h f f0.2 <;> cases hv1 : readGoFields h f fs <;> simp [hv0, hv1]

mutual
theorem readGo_mono (f : Nat) (h g : Heap) (a : Nat) (f' : Nat) (v : JValue)
    (hag : ∀ (i : Nat) (c : Cell), h[i]? = some c → g[i]? = some c) (hf : f ≤ f')
    (hv : readGo h f a = some v) : readGo g f' a = some v := by
  cases f with
  | zero => rw [readGo] at hv; exact Option.noConfusion hv
  | succ f =>
    obtain ⟨f', rfl⟩ : ∃ g0, f' = g0 + 1 := ⟨f' - 1, by omega⟩
    rw [readGo] at hv
    cases hc : h[a]? with
    | none => rw [hc] at hv; exact Option.noConfusion hv
    | some cell =>
      rw [hc] at hv
      have hg := hag a cell hc
      rw [readGo, hg]
      cases cell with
      | cnull => exact hv
      | cbool b => exact hv
      | cnum n => exact hv
      | cstr s => exact hv
      | carr cs =>
        have hv2 : Option.map JValue.arr (readGoList h f cs) = some v := hv
        show Option.map JValue.arr (readGoList g f' cs) = some v
        cases hcs : readGoList h f cs with
        | none => rw [hcs] at hv2; exact absurd hv2 (by simp)
        | some vs =>
          rw [hcs] at hv2
          rw [readGoList_mono f h g cs f' vs hag (by omega) hcs]
          exact hv2
      | cobj fs =>
        have hv2 : Option.map JValue.obj (readGoFields h f fs) = some v := hv
        show Option.map JValue.obj (readGoFields g f' fs) = some v
        cases hfs : readGoFields h f fs with
        | none => rw [hfs] at hv2; exact absurd hv2 (by simp)
        | some vs =>
          rw [hfs] at hv2
          rw [readGoFields_mono f h g fs f' vs hag (by omega) hfs]
          exact hv2
termination_by f
theorem readGoList_mono (f : Nat) (h g : Heap) (cs : List Nat) (f' : Nat)
    (vs : List JValue)
    (hag : ∀ (i : Nat) (c : Cell), h[i]? = some c → g[i]? = some c) (hf : f ≤ f')
    (hv : readGoList h f cs = some vs) : readGoList g f' cs = some vs := by
  cases cs with
  | nil =>
    rw [readGoList_nil] at hv
    rw [readGoList_nil]; exact hv
  | cons c0 cs =>
    cases f with
    | zero => rw [readGoList_zero_cons] at hv; exact Option.noConfusion hv
    | succ f =>
      obtain ⟨f', rfl⟩ : ∃ g0, f' = g0 + 1 := ⟨f' - 1, by omega⟩
      rw [readGoList_succ_cons] at hv
      cases hv0 : readGo h f c0 with
      | none => rw [hv0] at hv; exact Option.noConfusion hv
      | some v0 =>
        rw [hv0] at hv
        cases hv1 : readGoList h f cs with
        | none => rw [hv1] at hv; exact Option.noConfusion hv
        | some vs1 =>
          rw [hv1] at hv
          rw [readGoList_succ_cons, readGo_mono f h g c0 f' v0 hag (by omega) hv0,
            readGoList_mono f h g cs f' vs1 hag (by omega) hv1]
          exact hv
termination_by f
theorem readGoFields_mono (f : Nat) (h g : Heap) (fs : List (String × Nat)) (f' : Nat)
    (vs : List (String × JValue))
    (hag : ∀ (i : Nat) (c : Cell), h[i]? = some c → g[i]? = some c) (hf : f ≤ f')
    (hv : readGoFields h f fs = some vs) : readGoFields g f' fs = some vs := by
  cases fs with
  | nil =>
    rw [readGoFields_nil] at hv
    rw [readGoFields_nil]; exact hv
  | cons f0 fs =>
    cases f with
    | zero => rw [readGoFields_zero_cons] at hv; exact Option.noConfusion hv
    | succ f =>
      obtain ⟨f', rfl⟩ : ∃ g0, f' = g0 + 1 := ⟨f' - 1, by omega⟩
      rw [readGoFields_succ_cons] at hv
      cases hv0 : readGo h f f0.2 with
      | none => rw [hv0] at hv; exact Option.noConfusion hv
      | some v0 =>
        rw [hv0] at hv
        cases hv1 : readGoFields h f fs with
        | none => rw [hv1] at hv; exact Option.noConfusion hv
        | some vs1 =>
          rw [hv1] at hv
          rw [readGoFields_succ_cons, readGo_mono f h g f0.2 f' v0 hag (by omega) hv0,
            readGoFields_mono f h g fs f' vs1 hag (by omega) hv1]
          exact hv
termination_by f
end

theorem readAt_mono (h g : Heap) (a : Nat) (v : JValue)
    (hag : ∀ (i : Nat) (c : Cell), h[i]? = some c → g[i]? = some c)
    (hlen : h.length ≤ g.length)
    (hv : readAt h a = some v) : readAt g a = some v :=
  readGo_mono _ h g a _ v hag (by omega) hv

mutual
theorem storeVal_grow : ∀ (v : JValue) (h : Heap),
    ∃ ext, (storeVal h v).1 = h ++ ext ∧ sizeJ v + 1 ≤ 2 * ext.length
  | .null, h => ⟨[.cnull], rfl, by rw [sizeJ]; simp⟩
  | .jbool b, h => ⟨[.cbool b], rfl, by rw [sizeJ]; simp⟩
  | .num n, h => ⟨[.cnum n], rfl, by rw [sizeJ]; simp⟩
  | .str s, h => ⟨[.cstr s], rfl, by rw [sizeJ]; simp⟩
  | .arr xs, h => by
    obtain ⟨ext, hext, hsz⟩ := storeList_grow xs h
    refine ⟨ext ++ [.carr (storeList h xs).2], ?_, ?_⟩
    · rw [storeVal]
      simp only [hext, List.append_assoc]
    · rw [sizeJ]
      simp only [List.length_append, List.length_cons, List.length_nil]
      omega
  | .obj fs, h => by
    obtain ⟨ext, hext, hsz⟩ := storeFields_grow fs h
    refine ⟨ext ++ [.cobj (storeFields h fs).2], ?_, ?_⟩
    · rw [storeVal]
      simp only [hext, List.append_assoc]
    · rw [sizeJ]
      simp only [List.length_append, List.length_cons, List.length_nil]
      omega
theorem storeList_grow : ∀ (xs : List JValue) (h : Heap),
    ∃ ext, (storeList h xs).1 = h ++ ext ∧ sizeItems xs ≤ 2 * ext.length
  | [], h => ⟨[], by simp [storeList], by rw [sizeItems]; omega⟩
  | x :: xs, h => by
    obtain ⟨e1, he1, hs1⟩ := storeVal_grow x h
    obtain ⟨e2, he2, hs2⟩ := storeList_grow xs (storeVal h x).1
    refine ⟨e1 ++ e2, ?_, ?_⟩
    · rw [storeList]
      simp only []
      rw [he2, he1, List.append_assoc]
    · rw [sizeItems]
      simp only [List.length_append]
      omega
theorem storeFields_grow : ∀ (fs : List (String × JValue)) (h : Heap),
    ∃ ext, (storeFields h fs).1 = h ++ ext ∧ sizeFields fs ≤ 2 * ext.length
  | [], h => ⟨[], by simp [storeFields], by rw [sizeFields]; omega⟩
  | f :: fs, h => by
    obtain ⟨e1, he1, hs1⟩ := storeVal_grow f.2 h
    obtain ⟨e2, he2, hs2⟩ := storeFields_grow fs (storeVal h f.2).1
    refine ⟨e1 ++ e2, ?_, ?_⟩
    · rw [storeFields]
      simp only []
      rw [he2, he1, List.append_assoc]
    · rw [sizeFields]
      simp only [List.length_append]
      omega
end

theorem storeVal_root (h : Heap) (v : JValue) :
    h.length ≤ (storeVal h v).2 ∧ (storeVal h v).2 < (storeVal h v).1.length := by
  cases v with
  | null => rw [storeVal]; simp
  | jbool b => rw [storeVal]; simp
  | num n => rw [storeVal]; simp
  | str s => rw [storeVal]; simp
  | arr xs =>
    obtain ⟨ext, hext, _⟩ := storeList_grow xs h
    rw [storeVal]
    simp only [hext, List.length_append, List.length_cons, List.length_nil]
    omega
  | obj fs =>
    obtain ⟨ext, hext, _⟩ := storeFields_grow fs h
    rw [storeVal]
    simp only [hext, List.length_append, List.length_cons, List.length_nil]
    omega


/- Reading back a freshly stored graph: the read succeeds in any heap `g`
that agrees with the post-store heap on the fresh region (indices at or
above the pre-store length) — the stored graph's cells, children included,
all live there. -/
mutual
theorem readback_val : ∀ (v : JValue) (h g : Heap) (f : Nat), sizeJ v ≤ f →
    (∀ i c, h.length ≤ i → ((storeVal h v).1)[i]? = some c → g[i]? = some c) →
    readGo g f (storeVal h v).2 = some v
  | .null, h, g, f, hf, hag => by
    obtain ⟨f, rfl⟩ : ∃ f0, f = f0 + 1 := ⟨f - 1, by rw [sizeJ] at hf; omega⟩
    have hc : g[h.length]? = some .cnull := by
      refine hag h.length .cnull (le_refl _) ?_
      rw [storeVal]
      exact List.getElem?_concat_length h .cnull
    rw [show (storeVal h JValue.null).2 = h.length by rw [storeVal]]
    rw [readGo, hc]
  | .jbool b, h, g, f, hf, hag => by
    obtain ⟨f, rfl⟩ : ∃ f0, f = f0 + 1 := ⟨f - 1, by rw [sizeJ] at hf; omega⟩
    have hc : g[h.length]? = some (.cbool b) := by
      refine hag h.length (.cbool b) (le_refl _) ?_
      rw [storeVal]
      exact List.getElem?_concat_length h (.cbool b)
    rw [show (storeVal h (JValue.jbool b)).2 = h.length by rw [storeVal]]
    rw [readGo, hc]
  | .num n, h, g, f, hf, hag => by
    obtain ⟨f, rfl⟩ : ∃ f0, f = f0 + 1 := ⟨f - 1, by rw [sizeJ] at hf; omega⟩
    have hc : g[h.length]? = some (.cnum n) := by
      refine hag h.length (.cnum n) (le_refl _) ?_
      rw [storeVal]
      exact List.getElem?_concat_length h (.cnum n)
    rw [show (storeVal h (JValue.num n)).2 = h.length by rw [storeVal]]
    rw [readGo, hc]
  | .str s, h, g, f, hf, hag => by
    obtain ⟨f, rfl⟩ : ∃ f0, f = f0 + 1 := ⟨f - 1, by rw [sizeJ] at hf; omega⟩
    have hc : g[h.length]? = some (.cstr s) := by
      refine hag h.length (.cstr s) (le_refl _) ?_
      rw [storeVal]
      exact List.getElem?_concat_length h (.cstr s)
    rw [show (storeVal h (JValue.str s)).2 = h.length by rw [storeVal]]
    rw [readGo, hc]
  | .arr xs, h, g, f, hf, hag => by
    obtain ⟨f, rfl⟩ : ∃ f0, f = f0 + 1 := ⟨f - 1, by rw [sizeJ] at hf; omega⟩
    obtain ⟨ext, hext, _⟩ := storeList_grow xs h
    have hlen : h.length ≤ (storeList h xs).1.length := by
      rw [hext]; simp
    have hroot : (storeVal h (JValue.arr xs)).2 = (storeList h xs).1.length := by
      rw [storeVal]
    have hheap : (storeVal h (JValue.arr xs)).1 =
        (storeList h xs).1 ++ [.carr (storeList h xs).2] := by
      rw [storeVal]
    have hc : g[(storeList h xs).1.length]? = some (.carr (storeList h xs).2) := by
      refine hag _ _ (by omega) ?_
      rw [hheap]
      exact List.getElem?_concat_length _ _
    have hlist : readGoList g f (storeList h xs).2 = some xs := by
      refine readback_list xs h g f (by rw [sizeJ] at hf; omega) ?_
      intro i c hi hic
      refine hag i c hi ?_
      rw [hheap]
      exact getElem?_prefix hic
    rw [hroot, readGo, hc]
    show Option.map JValue.arr (readGoList g f (storeList h xs).2) = some (JValue.arr xs)
    rw [hlist]
    rfl
  | .obj fs, h, g, f, hf, hag => by
    obtain ⟨f, rfl⟩ : ∃ f0, f = f0 + 1 := ⟨f - 1, by rw [sizeJ] at hf; omega⟩
    obtain ⟨ext, hext, _⟩ := storeFields_grow fs h
    have hlen : h.length ≤ (storeFields h fs).1.length := by
      rw [hext]; simp
    have hroot : (storeVal h (JValue.obj fs)).2 = (storeFields h fs).1.length := by
      rw [storeVal]
    have hheap : (storeVal h (JValue.obj fs)).1 =
        (storeFields h fs).1 ++ [.cobj (storeFields h fs).2] := by
      rw [storeVal]
    have hc : g[(storeFields h fs).1.length]? = some (.cobj (storeFields h fs).2) := by
      refine hag _ _ (by omega) ?_
      rw [hheap]
      exact List.getElem?_concat_length _ _
    have hfields : readGoFields g f (storeFields h fs).2 = some fs := by
      refine readback_fields fs h g f (by rw [sizeJ] at hf; omega) ?_
      intro i c hi hic
      refine hag i c hi ?_
      rw [hheap]
      exact getElem?_prefix hic
    rw [hroot, readGo, hc]
    show Option.map JValue.obj (readGoFields g f (storeFields h fs).2) = some (JValue.obj fs)
    rw [hfields]
    rfl
theorem readback_list : ∀ (xs : List JValue) (h g : Heap) (f : Nat), sizeItems xs ≤ f →
    (∀ i c, h.length ≤ i → ((storeList h xs).1)[i]? = some c → g[i]? = some c) →
    readGoList g f (storeList h xs).2 = some xs
  | [], h, g, f, _, _ => by
    rw [show (storeList h ([] : List JValue)).2 = [] by rw [storeList]]
    exact readGoList_nil g f
  | x :: xs, h, g, f, hf, hag => by
    obtain ⟨f, rfl⟩ : ∃ f0, f = f0 + 1 := ⟨f - 1, by rw [sizeItems] at hf; omega⟩
    have hrep1 : (storeList h (x :: xs)).1 = (storeList (storeVal h x).1 xs).1 := by
      rw [storeList]
    have hrep2 : (storeList h (x :: xs)).2 =
        (storeVal h x).2 :: (storeList (storeVal h x).1 xs).2 := by
      rw [storeList]
    obtain ⟨e1, he1, _⟩ := storeVal_grow x h
    obtain ⟨e2, he2, _⟩ := storeList_grow xs (storeVal h x).1
    have hl1 : h.length ≤ (storeVal h x).1.length := by rw [he1]; simp
    have hval : readGo g f (storeVal h x).2 = some x := by
      refine readback_val x h g f (by rw [sizeItems] at hf; omega) ?_
      intro i c hi hic
      refine hag i c hi ?_
      rw [hrep1, he2]
      exact getElem?_prefix hic
    have hrest : readGoList g f (storeList (storeVal h x).1 xs).2 = some xs := by
      refine readback_list xs (storeVal h x).1 g f (by rw [sizeItems] at hf; omega) ?_
      intro i c hi hic
      exact hag i c (by omega) (by rw [hrep1]; exact hic)
    rw [hrep2, readGoList_succ_cons, hval, hrest]
    rfl
theorem readback_fields : ∀ (fs : List (String × JValue)) (h g : Heap) (f : Nat),
    sizeFields fs ≤ f →
    (∀ i c, h.length ≤ i → ((storeFields h fs).1)[i]? = some c → g[i]? = some c) →
    readGoFields g f (storeFields h fs).2 = some fs
  | [], h, g, f, _, _ => by
    rw [show (storeFields h ([] : List (String × JValue))).2 = [] by rw [storeFields]]
    exact readGoFields_nil g f
  | f0 :: fs, h, g, f, hf, hag => by
    obtain ⟨f, rfl⟩ : ∃ f1, f = f1 + 1 := ⟨f - 1, by rw [sizeFields] at hf; omega⟩
    have hrep1 : (storeFields h (f0 :: fs)).1 = (storeFields (storeVal h f0.2).1 fs).1 := by
      rw [storeFields]
    have hrep2 : (storeFields h (f0 :: fs)).2 =
        (f0.1, (storeVal h f0.2).2) :: (storeFields (storeVal h f0.2).1 fs).2 := by
      rw [storeFields]
    obtain ⟨e1, he1, _⟩ := storeVal_grow f0.2 h
    obtain ⟨e2, he2, _⟩ := storeFields_grow fs (storeVal h f0.2).1
    have hl1 : h.length ≤ (storeVal h f0.2).1.length := by rw [he1]; simp
    have hval : readGo g f (storeVal h f0.2).2 = some f0.2 := by
      refine readback_val f0.2 h g f (by rw [sizeFields] at hf; omega) ?_
      intro i c hi hic
      refine hag i c hi ?_
      rw [hrep1, he2]
      exact getElem?_prefix hic
    have hrest : readGoFields g f (storeFields (storeVal h f0.2).1 fs).2 = some fs := by
      refine readback_fields fs (storeVal h f0.2).1 g f (by rw [sizeFields] at hf; omega) ?_
      intro i c hi hic
      exact hag i c (by omega) (by rw [hrep1]; exact hic)
    rw [hrep2, readGoFields_succ_cons, hval, hrest]
    rfl
end

/-- A freshly stored value reads back as itself. -/
theorem readAt_storeVal (h : Heap) (v : JValue) :
    readAt (storeVal h v).1 (storeVal h v).2 = some v := by
  obtain ⟨ext, hext, hsz⟩ := storeVal_grow v h
  rw [readAt]
  refine readback_val v h (storeVal h v).1 _ ?_ (fun i c _ hic => hic)
  rw [hext]
  simp only [List.length_append]
  omega


/-- Mutating any pre-existing cell (an address below the pre-store heap
length — e.g. a cell of the caller's argument, or of a previously returned
copy) never changes how a freshly stored graph reads back. -/
theorem readAt_storeVal_set_low (h : Heap) (v : JValue) (b : Nat) (c : Cell)
    (hb : b < h.length) :
    readAt (setCell (storeVal h v).1 b c) (storeVal h v).2 = some v := by
  obtain ⟨ext, hext, hsz⟩ := storeVal_grow v h
  rw [readAt]
  refine readback_val v h _ _ ?_ ?_
  · rw [setCell, List.length_set, hext]
    simp only [List.length_append]
    omega
  · intro i cc hi hic
    rw [setCell, List.getElem?_set_ne (by omega)]
    exact hic

/-- Mutating any fresh cell (an address at or above the old heap length —
e.g. a cell of a copy handed out afterwards) never changes how an old
graph reads back. -/
theorem readAt_set_fresh (h ext : Heap) (a b : Nat) (c : Cell) (w : JValue)
    (hb : h.length ≤ b) (hw : readAt h a = some w) :
    readAt (setCell (h ++ ext) b c) a = some w := by
  refine readAt_mono h _ a w ?_ ?_ hw
  · intro i cc hic
    have hi : i < h.length := by
      by_contra hge
      rw [List.getElem?_eq_none (by omega)] at hic
      exact Option.noConfusion hic
    rw [setCell, List.getElem?_set_ne (by omega), List.getElem?_append_left hi]
    exact hic
  · rw [setCell, List.length_set]
    simp

/-- `copy.deepcopy` only appends to the heap. -/
theorem deepcopyH_ext (h : Heap) (a : Nat) : ∃ ext, (deepcopyH h a).1 = h ++ ext := by
  rw [deepcopyH]
  cases hr : readAt h a with
  | none => exact ⟨[], by simp⟩
  | some v =>
    obtain ⟨ext, hext, _⟩ := storeVal_grow v h
    exact ⟨ext, hext⟩

/-- `list_threads` only appends to the heap (one deep copy per record). -/
theorem listH_ext : ∀ (l : List (String × Nat)) (h : Heap),
    ∃ ext, (listH h l).1 = h ++ ext
  | [], h => ⟨[], by rw [listH]; simp⟩
  | kv :: rest, h => by
    obtain ⟨e1, he1⟩ := deepcopyH_ext h kv.2
    obtain ⟨e2, he2⟩ := listH_ext rest (deepcopyH h kv.2).1
    refine ⟨e1 ++ e2, ?_⟩
    rw [listH]
    simp only []
    rw [he2, he1, List.append_assoc]

/-- `get` only appends to the heap. -/
theorem getH_ext (h : Heap) (st : RegistryH) (tid : String) :
    ∃ ext, (getH h st tid).1 = h ++ ext := by
  rw [getH]
  cases alookup tid st.threads with
  | none => exact ⟨[], by simp⟩
  | some addr => exact deepcopyH_ext h addr

/-- If every stored record reads back in heap `h`, then mutating any fresh
cell of any later heap `h ++ ext` changes no stored record's value. -/
theorem getPure_set_fresh (h ext : Heap) (st : RegistryH) (b : Nat) (c : Cell)
    (k : String)
    (hwf : ∀ kv ∈ st.threads, ∃ w, readAt h kv.2 = some w) (hb : h.length ≤ b) :
    getPure (setCell (h ++ ext) b c) st k = getPure h st k := by
  rw [getPure, getPure]
  cases hl : alookup k st.threads with
  | none => rfl
  | some a =>
    obtain ⟨w, hw⟩ := hwf (k, a) (alookup_mem _ _ _ hl)
    show readAt (setCell (h ++ ext) b c) a = readAt h a
    rw [hw, readAt_set_fresh h ext a b c w hb hw]


/-! ## Remaining helper lemmas for the claims -/

theorem jnormFields_eq_map (l : List (String × JValue)) :
    jnormFields l = l.map (fun f => (f.1, jnorm f.2)) := by
  induction l with
  | nil => rfl
  | cons f fs ih => rw [jnormFields, ih]; rfl

/-- The serialized file content is a function of the map up to reordering:
`sort_keys=True` makes equal dicts (same pairs, any insertion order)
serialize identically. -/
theorem dumpThreadsStr_perm (ts ts' : List (String × JValue))
    (hp : ts.Perm ts') (hn : (ts.map Prod.fst).Nodup) :
    dumpThreadsStr ts = dumpThreadsStr ts' := by
  rw [dumpThreadsStr, dumpThreadsStr]
  rw [show jnorm (.obj ts) = .obj (sortFields (jnormFields ts)) from rfl,
    show jnorm (.obj ts') = .obj (sortFields (jnormFields ts')) from rfl]
  have hperm : (jnormFields ts).Perm (jnormFields ts') := by
    rw [jnormFields_eq_map, jnormFields_eq_map]
    exact hp.map _
  have hnn : ((jnormFields ts).map Prod.fst).Nodup := by
    rw [jnormFields_map_fst]; exact hn
  rw [sortFields_eq_of_perm _ _ hperm hnn]

/-! ## The claims -/

/-- C1: if the persist sequence inside `upsert` fails after the temporary
file is created and before the atomic rename completes (write, fsync or
rename failure), the destination state file is untouched — it reads exactly
as before, whether it held a previous snapshot or was absent; and after any
`upsert` outcome (validation failure, any persist failure, success) the
temporary file does not remain, given that `mkstemp`'s name was fresh and
distinct from the destination. -/
theorem C1_upsert_failure_atomic_no_tmp (fs : FS) (r : Registry)
    (thread : List (String × JValue)) (tmp : String) (fail : PStep)
    (htmp : tmp ≠ r.state_file) (hfresh : fsExists fs tmp = false) :
    (fail = .writeFail ∨ fail = .fsyncFail ∨ fail = .renameFail →
      fsRead (upsert fs r thread tmp fail).1 r.state_file = fsRead fs r.state_file) ∧
    fsExists (upsert fs r thread tmp fail).1 tmp = false := by
  cases htr : pyTruthy ((alookup "thread_id" thread).getD .null) with
  | false =>
    have h1 : (upsert fs r thread tmp fail).1 = fs := by
      simp only [upsert, htr, Bool.false_eq_true, reduceIte]
    rw [h1]
    exact ⟨fun _ => rfl, hfresh⟩
  | true =>
    have h1 : (upsert fs r thread tmp fail).1 =
        (persistRun fs r.state_file tmp (dumpThreadsStr (objInsert r.threads
          (pyStr ((alookup "thread_id" thread).getD .null)) (.obj thread))) fail).1 := by
      simp only [upsert, htr, reduceIte]
    rw [h1]
    constructor
    · rintro (rfl | rfl | rfl) <;>
        exact persistRun_dest_unchanged _ _ _ _ _ htmp (by simp [persistRun])
    · exact persistRun_no_tmp _ _ _ _ _ htmp hfresh

theorem C1_witness :
    ("t" : String) ≠ "f" ∧ fsExists [] "t" = false ∧
    ((PStep.writeFail = .writeFail ∨ PStep.writeFail = .fsyncFail ∨
        PStep.writeFail = .renameFail →
      fsRead (upsert [] ⟨"f", []⟩ [] "t" .writeFail).1 "f" = fsRead [] "f") ∧
     fsExists (upsert [] ⟨"f", []⟩ [] "t" .writeFail).1 "t" = false) :=
  ⟨by decide, rfl, C1_upsert_failure_atomic_no_tmp [] ⟨"f", []⟩ [] "t" .writeFail
    (by decide) rfl⟩

/-- C2: constructing a registry over a state file holding the malformed
document "\x7bnot-json" fails with the load error, whose message names the
offending path and carries the parser's cause — it does not silently
produce an empty registry. -/
theorem C2_malformed_json_load_error (fs : FS) (path : String)
    (hread : fsRead fs path = some "\x7bnot-json") :
    ∃ cause, constructRegistry fs path =
        .error ("Failed to load registry from " ++ path ++ ": " ++ cause) ∧
      cause = "Expecting property name" := by
  refine ⟨"Expecting property name", ?_, rfl⟩
  simp only [constructRegistry, loadThreads, hread]
  rfl

theorem C2_witness :
    fsRead [("p", "\x7bnot-json")] "p" = some "\x7bnot-json" ∧
    ∃ cause, constructRegistry [("p", "\x7bnot-json")] "p" =
        .error ("Failed to load registry from " ++ "p" ++ ": " ++ cause) ∧
      cause = "Expecting property name" :=
  ⟨rfl, C2_malformed_json_load_error [("p", "\x7bnot-json")] "p" rfl⟩

/-- C3: round-trip.  For a record (mapping) whose `thread_id` is truthy,
after a fully successful `upsert` a freshly constructed registry over the
same state file succeeds, and `get` of the coerced identity returns a value
structurally equal (as a Python `==` comparison of JSON trees, i.e. up to
key order — `jnorm`) to the upserted record. -/
theorem C3_roundtrip (fs : FS) (r : Registry) (thread : List (String × JValue))
    (tmp : String) (tid : JValue)
    (htid : alookup "thread_id" thread = some tid)
    (htr : pyTruthy tid = true)
    (hwft : jwfB (.obj thread) = true)
    (hwfr : ∀ kv ∈ r.threads, jwfB kv.2 = true)
    (hnodup : (r.threads.map Prod.fst).Nodup)
    (htmp : tmp ≠ r.state_file) :
    (upsert fs r thread tmp .noFail).2.2 = .ok () ∧
    ∃ r₂, constructRegistry (upsert fs r thread tmp .noFail).1 r.state_file = .ok r₂ ∧
      ∃ v, r₂.get (pyStr tid) = some v ∧ jnorm v = jnorm (.obj thread) := by
  have hg : (alookup "thread_id" thread).getD .null = tid := by rw [htid]; rfl
  have hok : (persistRun fs r.state_file tmp
      (dumpThreadsStr (objInsert r.threads (pyStr tid) (.obj thread))) .noFail).2 =
      true := by simp [persistRun]
  have hwfNew : jwfB (.obj (objInsert r.threads (pyStr tid) (.obj thread))) = true := by
    rw [jwfB, Bool.and_eq_true]
    refine ⟨?_, ?_⟩
    · exact (strNodup_iff _).mpr (objInsert_nodup_keys _ _ _ hnodup)
    · refine (jwfFieldsB_iff _).mpr ?_
      intro kv hkv
      rcases mem_objInsert _ _ _ kv hkv with hnew | hold
      · rw [hnew]; exact hwft
      · exact hwfr kv hold
  have hdest : fsRead (persistRun fs r.state_file tmp
      (dumpThreadsStr (objInsert r.threads (pyStr tid) (.obj thread))) .noFail).1
      r.state_file =
      some (dumpThreadsStr (objInsert r.threads (pyStr tid) (.obj thread))) :=
    persistRun_success_dest _ _ _ _ _ htmp hok
  have hload : loadThreads (persistRun fs r.state_file tmp
      (dumpThreadsStr (objInsert r.threads (pyStr tid) (.obj thread))) .noFail).1
      r.state_file =
      .ok (sortFields (jnormFields (objInsert r.threads (pyStr tid) (.obj thread)))) :=
    loadThreads_of_dump _ _ _ hdest hwfNew
  have hkeysnodup :
      ((jnormFields (objInsert r.threads (pyStr tid) (.obj thread))).map Prod.fst).Nodup := by
    rw [jnormFields_map_fst]
    exact objInsert_nodup_keys _ _ _ hnodup
  have h1 : (upsert fs r thread tmp .noFail).1 =
      (persistRun fs r.state_file tmp
        (dumpThreadsStr (objInsert r.threads (pyStr tid) (.obj thread))) .noFail).1 := by
    simp only [upsert, hg, htr, reduceIte]
  have h3 : (upsert fs r thread tmp .noFail).2.2 = .ok () := by
    simp only [upsert, hg, htr, reduceIte, hok]
  refine ⟨h3, ?_⟩
  rw [h1]
  refine ⟨⟨r.state_file,
    sortFields (jnormFields (objInsert r.threads (pyStr tid) (.obj thread)))⟩, ?_, ?_⟩
  · rw [constructRegistry, hload]
    rfl
  · refine ⟨jnorm (.obj thread), ?_, jnorm_idem _⟩
    show alookup (pyStr tid)
        (sortFields (jnormFields (objInsert r.threads (pyStr tid) (.obj thread)))) =
      some (jnorm (.obj thread))
    rw [alookup_perm _ _ _ (sortFields_perm _)
      (((sortFields_perm _).map Prod.fst).nodup_iff.mpr hkeysnodup)]
    rw [alookup_jnormFields, alookup_objInsert_self]
    rfl

theorem C3_witness :
    alookup "thread_id" [("thread_id", JValue.str "t")] = some (.str "t") ∧
    pyTruthy (.str "t") = true ∧
    jwfB (.obj [("thread_id", JValue.str "t")]) = true ∧
    (∀ kv ∈ (⟨"f", []⟩ : Registry).threads, jwfB kv.2 = true) ∧
    ((⟨"f", []⟩ : Registry).threads.map Prod.fst).Nodup ∧
    ("g" : String) ≠ "f" ∧
    ((upsert [] ⟨"f", []⟩ [("thread_id", JValue.str "t")] "g" .noFail).2.2 = .ok () ∧
     ∃ r₂, constructRegistry
         (upsert [] ⟨"f", []⟩ [("thread_id", JValue.str "t")] "g" .noFail).1 "f" =
         .ok r₂ ∧
       ∃ v, r₂.get (pyStr (.str "t")) = some v ∧
         jnorm v = jnorm (.obj [("thread_id", JValue.str "t")])) :=
  ⟨rfl, rfl, rfl, by simp, by simp, by decide,
    C3_roundtrip [] ⟨"f", []⟩ [("thread_id", JValue.str "t")] "g" (.str "t")
      rfl rfl rfl (by simp) (by simp) (by decide)⟩

/-- C4 (counterexample): the record with `thread_id` equal to the integer 0
does NOT lack a thread_id that is non-empty after string coercion —
`str(0)` is the non-empty string "0" — yet `upsert` rejects it with the
ValidationError (the code tests Python truthiness of the raw value, not
non-emptiness of its coercion), refuting the claimed "if and only if". -/
theorem C4_counterexample :
    pyStr ((alookup "thread_id" [("thread_id", JValue.num 0)]).getD .null) = "0" ∧
    (upsert [] ⟨"f", []⟩ [("thread_id", JValue.num 0)] "t" .noFail).2.2 =
      .error (.validation "Thread must include a thread_id") ∧
    (upsert [] ⟨"f", []⟩ [("thread_id", JValue.num 0)] "t" .noFail).1 = [] :=
  ⟨rfl, rfl, rfl⟩

/-- C4 (amended): `upsert` fails with the ValidationError iff the record's
`thread_id` value (defaulting to None when absent) is falsy in Python's
sense — absent, None, False, 0, "", empty list or empty dict — which is not
the same as "its string coercion is empty"; on that failure the call
returns before any filesystem step and both the filesystem and the
in-memory registry are unchanged. -/
theorem C4_amended_truthiness (fs : FS) (r : Registry)
    (thread : List (String × JValue)) (tmp : String) (fail : PStep) :
    ((upsert fs r thread tmp fail).2.2 =
        .error (.validation "Thread must include a thread_id") ↔
      pyTruthy ((alookup "thread_id" thread).getD .null) = false) ∧
    (pyTruthy ((alookup "thread_id" thread).getD .null) = false →
      (upsert fs r thread tmp fail).1 = fs ∧ (upsert fs r thread tmp fail).2.1 = r) := by
  cases htr : pyTruthy ((alookup "thread_id" thread).getD .null) with
  | false =>
    have h1 : (upsert fs r thread tmp fail).1 = fs := by
      simp only [upsert, htr, Bool.false_eq_true, reduceIte]
    have h2 : (upsert fs r thread tmp fail).2.1 = r := by
      simp only [upsert, htr, Bool.false_eq_true, reduceIte]
    have h3 : (upsert fs r thread tmp fail).2.2 =
        .error (.validation "Thread must include a thread_id") := by
      simp only [upsert, htr, Bool.false_eq_true, reduceIte]
    exact ⟨⟨fun _ => rfl, fun _ => h3⟩, fun _ => ⟨h1, h2⟩⟩
  | true =>
    have h3 : (upsert fs r thread tmp fail).2.2 =
        if (persistRun fs r.state_file tmp (dumpThreadsStr (objInsert r.threads
          (pyStr ((alookup "thread_id" thread).getD .null)) (.obj thread))) fail).2
        then .ok () else .error (.persist "persist failed") := by
      simp only [upsert, htr, reduceIte]
    refine ⟨⟨?_, ?_⟩, ?_⟩
    · intro he
      rw [h3] at he
      cases hrun : (persistRun fs r.state_file tmp
          (dumpThreadsStr (objInsert r.threads
            (pyStr ((alookup "thread_id" thread).getD .null)) (.obj thread))) fail).2 with
      | false =>
        rw [hrun] at he
        simp only [Bool.false_eq_true, reduceIte, Except.error.injEq] at he
        exact RegError.noConfusion he
      | true =>
        rw [hrun] at he
        simp only [reduceIte] at he
        exact Except.noConfusion he
    · intro hfalse; exact Bool.noConfusion hfalse
    · intro hfalse; exact Bool.noConfusion hfalse

/-- C5: when the record passes validation and any persist step fails
(directory creation, temp-file creation, write, fsync or rename), `upsert`
surfaces the PersistError, and the in-memory map nevertheless already holds
the newly upserted record (durability unknown). -/
theorem C5_persist_failure_memory_retained (fs : FS) (r : Registry)
    (thread : List (String × JValue)) (tmp : String) (fail : PStep)
    (htr : pyTruthy ((alookup "thread_id" thread).getD .null) = true)
    (hfail : fail ≠ .noFail ∧ fail ≠ .dirFsyncFail) :
    (upsert fs r thread tmp fail).2.2 = .error (.persist "persist failed") ∧
    (upsert fs r thread tmp fail).2.1.threads =
      objInsert r.threads (pyStr ((alookup "thread_id" thread).getD .null))
        (.obj thread) ∧
    (upsert fs r thread tmp fail).2.1.get
        (pyStr ((alookup "thread_id" thread).getD .null)) = some (.obj thread) := by
  have hrun : (persistRun fs r.state_file tmp
      (dumpThreadsStr (objInsert r.threads
        (pyStr ((alookup "thread_id" thread).getD .null)) (.obj thread))) fail).2 =
      false := (persistRun_fails_iff _ _ _ _ _).mpr ⟨hfail.2, hfail.1⟩
  have h2 : (upsert fs r thread tmp fail).2.1 =
      ⟨r.state_file, objInsert r.threads
        (pyStr ((alookup "thread_id" thread).getD .null)) (.obj thread)⟩ := by
    simp only [upsert, htr, reduceIte]
  have h3 : (upsert fs r thread tmp fail).2.2 =
      if (persistRun fs r.state_file tmp (dumpThreadsStr (objInsert r.threads
        (pyStr ((alookup "thread_id" thread).getD .null)) (.obj thread))) fail).2
      then .ok () else .error (.persist "persist failed") := by
    simp only [upsert, htr, reduceIte]
  refine ⟨by rw [h3, hrun]; rfl, by rw [h2], ?_⟩
  rw [Registry.get, h2]
  exact alookup_objInsert_self _ _ _

theorem C5_witness :
    pyTruthy ((alookup "thread_id" [("thread_id", JValue.str "t")]).getD .null) = true ∧
    (PStep.writeFail ≠ PStep.noFail ∧ PStep.writeFail ≠ PStep.dirFsyncFail) ∧
    ((upsert [] ⟨"f", []⟩ [("thread_id", JValue.str "t")] "g" .writeFail).2.2 =
        .error (.persist "persist failed") ∧
     (upsert [] ⟨"f", []⟩ [("thread_id", JValue.str "t")] "g" .writeFail).2.1.threads =
        objInsert [] (pyStr ((alookup "thread_id"
          [("thread_id", JValue.str "t")]).getD .null)) (.obj [("thread_id", JValue.str "t")]) ∧
     (upsert [] ⟨"f", []⟩ [("thread_id", JValue.str "t")] "g" .writeFail).2.1.get
        (pyStr ((alookup "thread_id" [("thread_id", JValue.str "t")]).getD .null)) =
        some (.obj [("thread_id", JValue.str "t")])) :=
  ⟨rfl, by decide,
    C5_persist_failure_memory_retained [] ⟨"f", []⟩ [("thread_id", JValue.str "t")]
      "g" .writeFail rfl (by decide)⟩

/-- C6 (counterexample): construction-time load does NOT preserve the
claimed invariant: over the file "\x7b\"a\": 5\x7d" construction succeeds
with the non-mapping record 5 stored under key "a", which violates the
invariant (it is not a mapping, let alone one whose thread_id coerces to
"a"). -/
theorem C6_counterexample :
    ∃ r, constructRegistry [("f", "\x7b\"a\": 5\x7d")] "f" = .ok r ∧
      r.threads = [("a", JValue.num 5)] ∧ ¬ invThreads r.threads := by
  refine ⟨⟨"f", [("a", JValue.num 5)]⟩, rfl, rfl, ?_⟩
  intro hinv
  obtain ⟨fields, tid, habs, -, -⟩ := hinv ("a", JValue.num 5) (by simp)
  exact JValue.noConfusion habs

/-- C6 (amended): the invariant — every stored record is a mapping whose
`thread_id` coerces to its key — is preserved by `upsert` (and trivially by
`get` and `list_threads`, which do not modify the map), but it is NOT
established or checked by construction-time load: a hand-crafted state file
can produce a registry that violates it. -/
theorem C6_amended_upsert_preserves_invariant (fs : FS) (r : Registry)
    (thread : List (String × JValue)) (tmp : String) (fail : PStep)
    (hinv : invThreads r.threads) :
    invThreads (upsert fs r thread tmp fail).2.1.threads := by
  cases htr : pyTruthy ((alookup "thread_id" thread).getD .null) with
  | false =>
    have h2 : (upsert fs r thread tmp fail).2.1 = r := by
      simp only [upsert, htr, Bool.false_eq_true, reduceIte]
    rw [h2]; exact hinv
  | true =>
    have h2 : (upsert fs r thread tmp fail).2.1 =
        ⟨r.state_file, objInsert r.threads
          (pyStr ((alookup "thread_id" thread).getD .null)) (.obj thread)⟩ := by
      simp only [upsert, htr, reduceIte]
    rw [h2]
    intro kv hkv
    rcases mem_objInsert _ _ _ kv hkv with hnew | hold
    · subst hnew
      cases halt : alookup "thread_id" thread with
      | none =>
        rw [halt] at htr
        exact absurd htr (by decide)
      | some t0 => exact ⟨thread, t0, rfl, halt, rfl⟩
    · exact hinv kv hold

theorem C6_amended_witness :
    invThreads (⟨"f", []⟩ : Registry).threads ∧
    invThreads (upsert [] ⟨"f", []⟩ [("thread_id", JValue.str "t")] "g" .noFail).2.1.threads :=
  ⟨fun kv hkv => absurd hkv (by simp),
    C6_amended_upsert_preserves_invariant [] ⟨"f", []⟩ [("thread_id", JValue.str "t")]
      "g" .noFail (fun kv hkv => absurd hkv (by simp))⟩

/-- C7: reference isolation in the heap model.  All copies handed out by
`get` or `list_threads` live in the fresh heap region (at or above the old
heap length), and (i), (ii): mutating any cell of that region changes no
subsequent `get` of any key; (iii): `upsert` deep-copies its argument to a
fresh address, and mutating any pre-existing cell — in particular any cell
of the caller's argument graph — afterwards leaves the stored copy reading
back exactly as the upserted record. -/
theorem C7_isolation (h : Heap) (st : RegistryH) (tid : String) (arg : Nat)
    (fields : List (String × JValue))
    (hwf : ∀ kv ∈ st.threads, ∃ w, readAt h kv.2 = some w)
    (harg : readAt h arg = some (.obj fields))
    (htr : pyTruthy ((alookup "thread_id" fields).getD .null) = true) :
    (∀ b c, h.length ≤ b → ∀ k,
      getPure (setCell (getH h st tid).1 b c) st k = getPure h st k) ∧
    (∀ b c, h.length ≤ b → ∀ k,
      getPure (setCell (listH h st.threads).1 b c) st k = getPure h st k) ∧
    ∃ h' st', upsertH h st arg = .ok (h', st') ∧
      ∀ b c, b < h.length →
        getPure (setCell h' b c) st'
          (pyStr ((alookup "thread_id" fields).getD .null)) = some (.obj fields) := by
  refine ⟨?_, ?_, ?_⟩
  · intro b c hb k
    obtain ⟨ext, hext⟩ := getH_ext h st tid
    rw [hext]
    exact getPure_set_fresh h ext st b c k hwf hb
  · intro b c hb k
    obtain ⟨ext, hext⟩ := listH_ext st.threads h
    rw [hext]
    exact getPure_set_fresh h ext st b c k hwf hb
  · refine ⟨(storeVal h (.obj fields)).1,
      ⟨objInsert st.threads (pyStr ((alookup "thread_id" fields).getD .null))
        (storeVal h (.obj fields)).2⟩, ?_, ?_⟩
    · rw [upsertH, harg]
      simp only [htr, reduceIte]
    · intro b c hb
      show (alookup (pyStr ((alookup "thread_id" fields).getD .null))
          (objInsert st.threads (pyStr ((alookup "thread_id" fields).getD .null))
            (storeVal h (.obj fields)).2)).bind
          (readAt (setCell (storeVal h (.obj fields)).1 b c)) = some (.obj fields)
      rw [alookup_objInsert_self]
      show readAt (setCell (storeVal h (.obj fields)).1 b c)
          (storeVal h (.obj fields)).2 = some (.obj fields)
      exact readAt_storeVal_set_low h (.obj fields) b c hb

theorem C7_witness :
    (∀ kv ∈ (⟨[]⟩ : RegistryH).threads, ∃ w,
      readAt [Cell.cstr "t", Cell.cobj [("thread_id", 0)]] kv.2 = some w) ∧
    readAt [Cell.cstr "t", Cell.cobj [("thread_id", 0)]] 1 =
      some (.obj [("thread_id", JValue.str "t")]) ∧
    pyTruthy ((alookup "thread_id" [("thread_id", JValue.str "t")]).getD .null) = true ∧
    ((∀ b c, (2 : Nat) ≤ b → ∀ k,
       getPure (setCell (getH [Cell.cstr "t", Cell.cobj [("thread_id", 0)]] ⟨[]⟩ "x").1 b c)
         ⟨[]⟩ k = getPure [Cell.cstr "t", Cell.cobj [("thread_id", 0)]] ⟨[]⟩ k) ∧
     (∀ b c, (2 : Nat) ≤ b → ∀ k,
       getPure (setCell (listH [Cell.cstr "t", Cell.cobj [("thread_id", 0)]]
           (⟨[]⟩ : RegistryH).threads).1 b c) ⟨[]⟩ k =
         getPure [Cell.cstr "t", Cell.cobj [("thread_id", 0)]] ⟨[]⟩ k) ∧
     ∃ h' st', upsertH [Cell.cstr "t", Cell.cobj [("thread_id", 0)]] ⟨[]⟩ 1 =
         .ok (h', st') ∧
       ∀ b c, b < 2 →
         getPure (setCell h' b c) st'
           (pyStr ((alookup "thread_id" [("thread_id", JValue.str "t")]).getD .null)) =
           some (.obj [("thread_id", JValue.str "t")])) :=
  ⟨by simp, rfl, rfl,
    C7_isolation [Cell.cstr "t", Cell.cobj [("thread_id", 0)]] ⟨[]⟩ "x" 1
      [("thread_id", JValue.str "t")] (by simp) rfl rfl⟩

/-- C8: constructing a registry over a nonexistent path, over a file whose
content strips to the empty string (empty or whitespace-only), or over a
file whose content parses as JSON with a non-mapping top level, succeeds and
yields an empty registry. -/
theorem C8_empty_registry (fs : FS) (path : String)
    (h : fsRead fs path = none ∨
      (∃ raw, fsRead fs path = some raw ∧ pyStrip raw = "") ∨
      (∃ raw v, fsRead fs path = some raw ∧ jsonLoads (pyStrip raw) = .ok v ∧
        ∀ fields, v ≠ JValue.obj fields)) :
    ∃ r, constructRegistry fs path = .ok r ∧ r.list_threads = [] := by
  refine ⟨⟨path, []⟩, ?_, rfl⟩
  rcases h with hnone | ⟨raw, hraw, hstrip⟩ | ⟨raw, v, hraw, hparse, hnotobj⟩
  · simp only [constructRegistry, loadThreads, hnone]
    rfl
  · simp only [constructRegistry, loadThreads, hraw, hstrip, reduceIte]
    rfl
  · by_cases hs : pyStrip raw = ""
    · simp only [constructRegistry, loadThreads, hraw, hs, reduceIte]
      rfl
    · cases v with
      | obj fields => exact absurd rfl (hnotobj fields)
      | null => simp only [constructRegistry, loadThreads, hraw, hparse, if_neg hs]; rfl
      | jbool b => simp only [constructRegistry, loadThreads, hraw, hparse, if_neg hs]; rfl
      | num n => simp only [constructRegistry, loadThreads, hraw, hparse, if_neg hs]; rfl
      | str s => simp only [constructRegistry, loadThreads, hraw, hparse, if_neg hs]; rfl
      | arr xs => simp only [constructRegistry, loadThreads, hraw, hparse, if_neg hs]; rfl

theorem C8_witness :
    (fsRead [] "p" = none ∨
      (∃ raw, fsRead ([] : FS) "p" = some raw ∧ pyStrip raw = "") ∨
      (∃ raw v, fsRead ([] : FS) "p" = some raw ∧ jsonLoads (pyStrip raw) = .ok v ∧
        ∀ fields, v ≠ JValue.obj fields)) ∧
    ∃ r, constructRegistry [] "p" = .ok r ∧ r.list_threads = [] :=
  ⟨Or.inl rfl, C8_empty_registry [] "p" (Or.inl rfl)⟩

/-- C9: a fully successful `upsert` leaves the state file holding exactly
the serializer's output for the whole new in-memory map (indent 2, keys
sorted at every level), and that output is a deterministic function of the
map: any reordering of the same key-value pairs serializes to identical
file content. -/
theorem C9_persist_deterministic (fs : FS) (r : Registry)
    (thread : List (String × JValue)) (tmp : String)
    (htr : pyTruthy ((alookup "thread_id" thread).getD .null) = true)
    (htmp : tmp ≠ r.state_file) :
    (upsert fs r thread tmp .noFail).2.2 = .ok () ∧
    fsRead (upsert fs r thread tmp .noFail).1 r.state_file =
      some (dumpThreadsStr (upsert fs r thread tmp .noFail).2.1.threads) ∧
    ∀ ts', ts'.Perm (upsert fs r thread tmp .noFail).2.1.threads →
      (ts'.map Prod.fst).Nodup →
      dumpThreadsStr ts' = dumpThreadsStr (upsert fs r thread tmp .noFail).2.1.threads := by
  have hok : (persistRun fs r.state_file tmp
      (dumpThreadsStr (objInsert r.threads
        (pyStr ((alookup "thread_id" thread).getD .null)) (.obj thread))) .noFail).2 =
      true := by simp [persistRun]
  have h1 : (upsert fs r thread tmp .noFail).1 =
      (persistRun fs r.state_file tmp (dumpThreadsStr (objInsert r.threads
        (pyStr ((alookup "thread_id" thread).getD .null)) (.obj thread))) .noFail).1 := by
    simp only [upsert, htr, reduceIte]
  have h2 : (upsert fs r thread tmp .noFail).2.1.threads =
      objInsert r.threads
        (pyStr ((alookup "thread_id" thread).getD .null)) (.obj thread) := by
    simp only [upsert, htr, reduceIte]
  have h3 : (upsert fs r thread tmp .noFail).2.2 = .ok () := by
    simp only [upsert, htr, reduceIte, hok]
  refine ⟨h3, ?_, ?_⟩
  · rw [h1, h2]
    exact persistRun_success_dest _ _ _ _ _ htmp hok
  · intro ts' hp hn
    exact dumpThreadsStr_perm ts' _ hp hn

theorem C9_witness :
    pyTruthy ((alookup "thread_id" [("thread_id", JValue.str "t")]).getD .null) = true ∧
    ("g" : String) ≠ "f" ∧
    ((upsert [] ⟨"f", []⟩ [("thread_id", JValue.str "t")] "g" .noFail).2.2 = .ok () ∧
     fsRead (upsert [] ⟨"f", []⟩ [("thread_id", JValue.str "t")] "g" .noFail).1 "f" =
       some (dumpThreadsStr
         (upsert [] ⟨"f", []⟩ [("thread_id", JValue.str "t")] "g" .noFail).2.1.threads) ∧
     ∀ ts', ts'.Perm
         (upsert [] ⟨"f", []⟩ [("thread_id", JValue.str "t")] "g" .noFail).2.1.threads →
       (ts'.map Prod.fst).Nodup →
       dumpThreadsStr ts' = dumpThreadsStr
         (upsert [] ⟨"f", []⟩ [("thread_id", JValue.str "t")] "g" .noFail).2.1.threads) :=
  ⟨rfl, by decide,
    C9_persist_deterministic [] ⟨"f", []⟩ [("thread_id", JValue.str "t")] "g" rfl
      (by decide)⟩

/-- C10: load performs no per-record validation: over a file whose top
level is a JSON object with a non-mapping, thread_id-less value —
"\x7b\"a\": 5\x7d" — construction succeeds, the value is stored as-is
under "a", and `get "a"` returns the bare number 5 unchanged. -/
theorem C10_load_no_validation (fs : FS) (path : String)
    (hread : fsRead fs path = some "\x7b\"a\": 5\x7d") :
    ∃ r, constructRegistry fs path = .ok r ∧
      r.threads = [("a", JValue.num 5)] ∧ r.get "a" = some (JValue.num 5) := by
  refine ⟨⟨path, [("a", JValue.num 5)]⟩, ?_, rfl, rfl⟩
  simp only [constructRegistry, loadThreads, hread]
  rfl

theorem C10_witness :
    fsRead [("p", "\x7b\"a\": 5\x7d")] "p" = some "\x7b\"a\": 5\x7d" ∧
    ∃ r, constructRegistry [("p", "\x7b\"a\": 5\x7d")] "p" = .ok r ∧
      r.threads = [("a", JValue.num 5)] ∧ r.get "a" = some (JValue.num 5) :=
  ⟨rfl, C10_load_no_validation [("p", "\x7b\"a\": 5\x7d")] "p" rfl⟩

end Subagent
